import Mathlib

/-!
# Verification of the Outpost MTG inventory scraper and UI matching logic

Shallow embedding of the scraper pipeline in
`src/scripts/scrape-outpost-complete.js` and `src/unnamed/part_002`
(the basic scraper script), and of the UI matching function in
`src/lib/store.ts` (`analyzeDeck`).

HTML/DOM access (cheerio selectors) is modelled by structured inputs:
a card container carries the attribute values and sub-element texts the
scraper reads, a catalog page is the list of anchor elements the
selectors return.  Numbers are Nat/Int; JS `parseInt` returning `NaN` is
modelled as `Option.none`.

The price computation `Math.round(parseFloat(token) * 100)` appears in two
models.  `centsOfToken` reads the captured decimal exactly and rounds
half-up; it coincides with the runtime on every token with at most two
fraction digits (the storefront's `d.cc €` price format, and every price
the other theorems evaluate), which is proved below through the second
model.  `centsOfTokenFP` evaluates the same expression in IEEE binary64
arithmetic - `parseFloat` rounds the decimal to the nearest double
(roundTiesToEven, per the ECMAScript string-to-number specification), the
multiplication by the exactly representable 100 is correctly rounded, and
`Math.round` takes the closest integer (ties toward +infinity) of the
resulting double's exact value.  On longer fractions the two differ
("1.005" gives 101 exactly but 100 through doubles), which settles the
general-rounding part of the price-parsing claim.
-/

/-! ## JS string and number helpers -/

/-- `isInfixChars needle hay`: `needle` occurs as a contiguous sublist of
`hay` (JS `hay.includes(needle)` on the character level). -/
def isInfixChars (needle : List Char) : List Char → Bool
  | [] => needle.isEmpty
  | c :: rest => needle.isPrefixOf (c :: rest) || isInfixChars needle rest

/-- JS `a.includes(b)`. -/
def strIncludes (a b : String) : Bool := isInfixChars b.toList a.toList

/-- Strip leading and trailing whitespace from a character list. -/
def trimChars (l : List Char) : List Char :=
  ((l.dropWhile Char.isWhitespace).reverse.dropWhile Char.isWhitespace).reverse

/-- JS `s.trim()`. -/
def jsTrim (s : String) : String := String.mk (trimChars s.toList)

/-- JS `s.toLowerCase()` (character-wise; the texts involved are ASCII). -/
def jsToLower (s : String) : String := String.mk (s.toList.map Char.toLower)

/-- JS `s.startsWith(pre)`. -/
def jsStartsWith (s pre : String) : Bool := pre.toList.isPrefixOf s.toList

/-- Numeric value of a list of decimal digit characters, most significant
first (the accumulator loop of positional base-10 reading). -/
def digitsToNat (ds : List Char) : Nat := ds.foldl (fun a c => a * 10 + (c.toNat - 48)) 0

/-- The maximal run of leading decimal digits. -/
def leadDigits (l : List Char) : List Char := l.takeWhile Char.isDigit

/-- JS `parseInt(s, 10)`: skip leading whitespace, optional sign, then read
leading digits; `none` models `NaN` (no digits at the start). -/
def jsParseInt (s : String) : Option Int :=
  let l := s.toList.dropWhile Char.isWhitespace
  match l with
  | '-' :: rest =>
      if (leadDigits rest).isEmpty then none else some (-(digitsToNat (leadDigits rest) : Int))
  | '+' :: rest =>
      if (leadDigits rest).isEmpty then none else some ((digitsToNat (leadDigits rest) : Int))
  | _ =>
      if (leadDigits l).isEmpty then none else some ((digitsToNat (leadDigits l) : Int))

/-- The capture of the first match of the regex `(\d+\.?\d*)` in a character
list: the integer digits and the fraction digits (empty when no `.` follows
the integer digits).  The regex engine tries each start position left to
right and matches only where a digit begins. -/
def firstNumberToken : List Char → Option (List Char × List Char)
  | [] => none
  | c :: rest =>
      if c.isDigit then
        let intDs := leadDigits (c :: rest)
        match (c :: rest).dropWhile Char.isDigit with
        | '.' :: rest2 => some (intDs, leadDigits rest2)
        | _ => some (intDs, [])
      else firstNumberToken rest

/-- Round-half-up of `num / den` for naturals with `den > 0`: JS
`Math.round` on a nonnegative value, `⌊num/den + 1/2⌋`. -/
def roundHalfUp (num den : Nat) : Nat := (2 * num + den) / (2 * den)

/-- `Math.round(parseFloat(token) * 100)` for a captured decimal token
`intDs [. fracDs]`, with the decimal value read exactly:
the token denotes `(digitsToNat intDs * 10^k + digitsToNat fracDs) / 10^k`
where `k` is the number of fraction digits.  Exact-decimal model: it
agrees with the IEEE-binary64 evaluation (`centsOfTokenFP` below) on
tokens with at most two fraction digits - every price this development
evaluates - but not in general ("1.005" rounds to 101 here, 100 in JS). -/
def centsOfToken (intDs fracDs : List Char) : Nat :=
  roundHalfUp ((digitsToNat intDs * 10 ^ fracDs.length + digitsToNat fracDs) * 100)
    (10 ^ fracDs.length)

/-- Price extraction of `parseCardData` (scrape-outpost-complete.js lines
139-143): first `(\d+\.?\d*)` capture converted to cents, `0` when the
string holds no digits (`priceMatch` is `null`).  Uses the exact-decimal
`centsOfToken`; the binary64-faithful variant is `parsePriceCentsFP`
below, and the two agree on every ≤2-fraction-digit price. -/
def parsePriceCents (s : String) : Nat :=
  match firstNumberToken s.toList with
  | none => 0
  | some (intDs, fracDs) => centsOfToken intDs fracDs

/-- Replace the first occurrence of `pat` in a character list (JS
`String.prototype.replace` with a string pattern). -/
def replaceFirstChars (pat repl : List Char) : List Char → List Char
  | [] => []
  | c :: rest =>
      if pat.isPrefixOf (c :: rest) then repl ++ (c :: rest).drop pat.length
      else c :: replaceFirstChars pat repl rest

/-- JS `s.replace(pat, repl)` (first occurrence only, string pattern). -/
def jsReplaceFirst (s pat repl : String) : String :=
  String.mk (replaceFirstChars pat.toList repl.toList s.toList)

/-- `a.getD ""` - JS `element.attr(x) || ''` for an optional attribute. -/
def attrD (a : Option String) : String := a.getD ""

/-! ## HTML card extractor (`parseCardData`, scrape-outpost-complete.js 111-224;
identical in part_002 lines 18-131) -/

/-- The `[id^="ostk"]` stock element inside a sale row: its `id` attribute
and its text. -/
structure StockEl where
  id : String
  text : String
deriving Repr, DecidableEq

/-- One `.outpost_sli_sale` sub-element of a card container: the texts the
scraper reads from it.  `stockEl = none` models an absent stock element
(whose text then reads as `''`). -/
structure SaleRow where
  /-- text of `.outpost_sli_quality`, already `.trim()`-ed by the scraper -/
  quality : String
  stockEl : Option StockEl
  /-- raw text of `.outpost_sli_price` -/
  priceText : String
deriving Repr, DecidableEq

/-- One extracted condition offer (the object pushed onto `conditions`). -/
structure ConditionOffer where
  condition : String
  price : Nat
  /-- `none` models the JS `NaN` that `parseInt` yields on unparseable
  non-empty stock text. -/
  stock : Option Int
  priceFormatted : String
  outpostId : String
deriving Repr, DecidableEq

/-- JS `x > 0` where `x` may be `NaN` (`none`): `NaN > 0` is `false`. -/
def stockPos : Option Int → Bool
  | none => false
  | some n => decide (0 < n)

/-- `parseInt(stockElement.text().trim() || '0', 10)`. -/
def saleStock (r : SaleRow) : Option Int :=
  let t := jsTrim (match r.stockEl with | some e => e.text | none => "")
  jsParseInt (if t = "" then "0" else t)

/-- The `outpostId` computed from the stock element's `id` attribute
(`stockId.replace('ostk', '')`), `''` when the element is absent. -/
def saleOutpostId (r : SaleRow) : String :=
  match r.stockEl with
  | some e => if e.id = "" then "" else jsReplaceFirst e.id "ostk" ""
  | none => ""

/-- The body of the `.outpost_sli_sale` loop: the pushed offer, or `none`
when the row is filtered out (`conditionText` falsy/empty, or both price
and stock non-positive). -/
def saleToCondition (r : SaleRow) : Option ConditionOffer :=
  let conditionText := jsTrim r.quality
  let priceText := jsTrim r.priceText
  let priceCents := parsePriceCents priceText
  let stock := saleStock r
  if conditionText ≠ "" ∧ (0 < priceCents ∨ stockPos stock = true) then
    some { condition := conditionText, price := priceCents, stock := stock,
           priceFormatted := priceText, outpostId := saleOutpostId r }
  else none

/-- The five boolean color flags read off the container attributes. -/
structure Colors where
  white : Bool
  blue : Bool
  black : Bool
  red : Bool
  green : Bool
  colorless : Bool
deriving Repr, DecidableEq

/-- One `.outpost_shop_list_item_mtg` container: the attribute values and
sub-elements the scraper reads.  An `Option String` attribute is `none`
when the attribute is absent (JS `undefined`).  `setText` is the text of
`.outpost_sli_set_mtg` when that element exists; `imageSrc` is the
effective `src` of the first `img` (`attr('src') || ''`) when an `img`
exists; `detailHref` likewise for the first `a[href*="view=detail"]`. -/
structure CardContainer where
  elnm : Option String
  alphabet : Option String
  magicrarity : Option String
  foilAttr : Option String
  cw : Option String
  cu : Option String
  cb : Option String
  cr : Option String
  cg : Option String
  cnocol : Option String
  sales : List SaleRow
  setText : Option String
  priceAttr : Option String
  imageSrc : Option String
  detailHref : Option String
deriving Repr, DecidableEq

/-- The extracted record for one container (the `cardData` object). -/
structure CardData where
  name : String
  alphabet : String
  rarity : String
  foil : Bool
  colors : Colors
  conditions : List ConditionOffer
  price : Int
  priceFormatted : String
  stock : Option Int
  set : Option String
  imageUrl : Option String
  detailUrl : Option String
deriving Repr, DecidableEq

/-- `Math.min(...map(c => c.price))` over a non-empty offer list (the
callers guard non-emptiness; `[]` is never reached and reads `0`). -/
def minCondPrice : List ConditionOffer → Nat
  | [] => 0
  | c :: rest => rest.foldl (fun a o => min a o.price) c.price

/-- `list.find(c => c.price === p).priceFormatted`: the callers only call
this when `p` is attained, so `find` always succeeds; the `""` default is
never reached. -/
def findPriceFormatted (l : List ConditionOffer) (p : Nat) : String :=
  ((l.find? (fun o => o.price == p)).map (fun o => o.priceFormatted)).getD ""

/-- JS `+` where either side may be `NaN`. -/
def jsAdd : Option Int → Option Int → Option Int
  | some a, some b => some (a + b)
  | _, _ => none

/-- `conditions.reduce((sum, c) => sum + c.stock, 0)`. -/
def sumStock (l : List ConditionOffer) : Option Int :=
  l.foldl (fun s o => jsAdd s o.stock) (some 0)

/-- `(price / 100).toFixed(2) + ' €'` for a positive integer cent price. -/
def formatCents (p : Int) : String :=
  toString (p / 100) ++ "." ++
    (if (p % 100).toNat < 10 then "0" ++ toString (p % 100).toNat
     else toString (p % 100).toNat) ++ " €"

/-- Rewrite a relative URL to an absolute one
(`if (u && !u.startsWith('http')) u = BASE + u`). -/
def absolutize (u : String) : String :=
  if u ≠ "" ∧ ¬ jsStartsWith u "http" then "https://www.outpost.be/website/" ++ u else u

/-- `parseCardData` (scrape-outpost-complete.js lines 111-224): attribute
reads, the sale-row loop, the backwards-compatible `price`/`priceFormatted`
fallback chain, the stock sum, and set/image/detail extraction. -/
def parseCardData (el : CardContainer) : CardData :=
  let conditions := el.sales.filterMap saleToCondition
  let validPriceConditions := conditions.filter (fun c => decide (0 < c.price))
  let availableConditions :=
    conditions.filter (fun c => stockPos c.stock && decide (0 < c.price))
  let priceFmt : Int × String :=
    if availableConditions ≠ [] then
      let p := minCondPrice availableConditions
      ((p : Int), findPriceFormatted availableConditions p)
    else if validPriceConditions ≠ [] then
      let p := minCondPrice validPriceConditions
      ((p : Int), findPriceFormatted validPriceConditions p)
    else
      match jsParseInt (if attrD el.priceAttr = "" then "0" else attrD el.priceAttr) with
      | some fallbackPrice =>
          if 0 < fallbackPrice then (fallbackPrice, formatCents fallbackPrice)
          else (0, "0.00 €")
      | none => (0, "0.00 €")
  { name := attrD el.elnm
    alphabet := attrD el.alphabet
    rarity := attrD el.magicrarity
    foil := attrD el.foilAttr == "1"
    colors := { white := attrD el.cw == "1", blue := attrD el.cu == "1",
                black := attrD el.cb == "1", red := attrD el.cr == "1",
                green := attrD el.cg == "1", colorless := attrD el.cnocol == "1" }
    conditions := conditions
    price := priceFmt.1
    priceFormatted := priceFmt.2
    stock := sumStock conditions
    set := el.setText.map jsTrim
    imageUrl := el.imageSrc.map absolutize
    detailUrl := el.detailHref.map absolutize }

/-! ## Per-collection acceptance filter (`scrapeCollection`,
scrape-outpost-complete.js lines 227-280) -/

/-- `cardData.name && cardData.name.trim() !== ''`. -/
def hasValidName (d : CardData) : Bool := d.name ≠ "" && jsTrim d.name ≠ ""

/-- `cardData.price > 0`. -/
def hasValidPrice (d : CardData) : Bool := decide (0 < d.price)

/-- `cardData.conditions && cardData.conditions.length > 0`. -/
def hasValidConditions (d : CardData) : Bool := d.conditions ≠ []

/-- `cardData.set && cardData.set.trim() !== ''` (`set` may be absent). -/
def hasValidSet (d : CardData) : Bool :=
  match d.set with
  | none => false
  | some s => s ≠ "" && jsTrim s ≠ ""

/-- A record accepted into a collection's card list
(`{...cardData, collection, collectionId}`). -/
structure AcceptedCard where
  data : CardData
  collection : String
  collectionId : String
deriving Repr, DecidableEq

/-- Rejection tallies (`skipReasons`). -/
structure SkipReasons where
  noName : Nat
  noPrice : Nat
  noConditions : Nat
  noSet : Nat
deriving Repr, DecidableEq

/-- The accept-or-tally step for one container. -/
def acceptCard (colName colId : String) (el : CardContainer) : Option AcceptedCard :=
  let d := parseCardData el
  if hasValidName d && hasValidPrice d && hasValidConditions d && hasValidSet d then
    some { data := d, collection := colName, collectionId := colId }
  else none

/-- The tally increments for one rejected container. -/
def bumpReasons (r : SkipReasons) (d : CardData) : SkipReasons :=
  { noName := r.noName + (if hasValidName d then 0 else 1)
    noPrice := r.noPrice + (if hasValidPrice d then 0 else 1)
    noConditions := r.noConditions + (if hasValidConditions d then 0 else 1)
    noSet := r.noSet + (if hasValidSet d then 0 else 1) }

/-- One iteration of the `$('.outpost_shop_list_item_mtg').each` loop of
`scrapeCollection`: push the accepted record, or tally the rejection. -/
def scrapeStep (colName colId : String) (acc : List AcceptedCard × SkipReasons)
    (el : CardContainer) : List AcceptedCard × SkipReasons :=
  let d := parseCardData el
  if hasValidName d && hasValidPrice d && hasValidConditions d && hasValidSet d then
    (acc.1 ++ [{ data := d, collection := colName, collectionId := colId }], acc.2)
  else (acc.1, bumpReasons acc.2 d)

/-- The `$('.outpost_shop_list_item_mtg').each` loop of `scrapeCollection`
(lines 247-276): accepted cards in document order, and the rejection
tallies. -/
def scrapeCollectionPure (colName colId : String) (els : List CardContainer) :
    List AcceptedCard × SkipReasons :=
  els.foldl (scrapeStep colName colId) ([], ⟨0, 0, 0, 0⟩)

/-! ## Consolidation engine (`consolidateCards`,
scrape-outpost-complete.js lines 319-370; identical logic in part_002
lines 290-334).

`consolidateCards` inspects exactly four fields of each accumulated card
record - `name`, `price`, `stock`, `foil` - and passes the chosen record
through unchanged, so records are modelled by those fields. -/

/-- The fields of an accumulated card record that consolidation reads. -/
structure RawCard where
  name : String
  price : Int
  stock : Int
  foil : Bool
deriving Repr, DecidableEq

/-- `card.name.toLowerCase().trim()` - the grouping key. -/
def groupKey (c : RawCard) : String := jsTrim (jsToLower c.name)

/-- Append a key if unseen (JS `Map` keeps keys in insertion order). -/
def addKey (ks : List String) (k : String) : List String :=
  if k ∈ ks then ks else ks ++ [k]

/-- The distinct group keys in first-occurrence order (the iteration order
of the `cardGroups` map). -/
def groupKeys (cards : List RawCard) : List String :=
  cards.foldl (fun ks c => addKey ks (groupKey c)) []

/-- The group of a key: the cards with that key, in input order (the order
they were pushed onto the map entry). -/
def groupOf (cards : List RawCard) (k : String) : List RawCard :=
  cards.filter (fun c => groupKey c == k)

/-- `l.foldl` step keeping the earlier element on non-strict comparisons. -/
def foldPick {α : Type} (lt : α → α → Bool) (l : List α) (c : α) : α :=
  l.foldl (fun best x => if lt x best then x else best) c

/-- `l.sort(cmp)[0]` for a JS stable sort under a comparator induced by a
total key: the head of the stable-sorted array is the first element
attaining the minimal key, i.e. the fold that replaces the running best
only on a strict improvement. -/
def pickMin {α : Type} (lt : α → α → Bool) : List α → Option α
  | [] => none
  | c :: rest => some (foldPick lt rest c)

/-- `a` sorts strictly before `b` under the priority-1 comparator
(price ascending, then non-foil before foil). -/
def availLt (a b : RawCard) : Bool :=
  a.price < b.price || (a.price == b.price && (!a.foil && b.foil))

/-- `a` sorts strictly before `b` under the priority-2 comparator
(price ascending only). -/
def rawPriceLt (a b : RawCard) : Bool := a.price < b.price

/-- `availableCards`: the subset with `card.stock > 0 && card.price > 0`. -/
def availableOf (variants : List RawCard) : List RawCard :=
  variants.filter (fun c => decide (0 < c.stock) && decide (0 < c.price))

/-- `validPriceCards`: the subset with `card.price > 0`. -/
def validPriceOf (variants : List RawCard) : List RawCard :=
  variants.filter (fun c => decide (0 < c.price))

/-- The per-group selection (`bestCard` inside `consolidateCards`):
prefer stock-and-price-positive records sorted by (price, foil); else
price-positive records sorted by price; else no record. -/
def bestCard (variants : List RawCard) : Option RawCard :=
  if availableOf variants ≠ [] then pickMin availLt (availableOf variants)
  else pickMin rawPriceLt (validPriceOf variants)

/-- `consolidateCards`: one optional canonical record per group key, in
the map's key order. -/
def consolidateCards (cards : List RawCard) : List RawCard :=
  (groupKeys cards).filterMap (fun k => bestCard (groupOf cards k))

/-! ## UI matching function (`analyzeDeck`, src/lib/store.ts lines 79-196) -/

/-- One entry of an inventory card's `conditions` array as the UI reads it. -/
structure UICondition where
  condition : String
  price : Int
  stock : Int
deriving Repr, DecidableEq

/-- An inventory card as the UI matching reads it (`name`, optional `set`,
`conditions`). -/
structure OutpostCard where
  name : String
  set : Option String
  conditions : List UICondition
deriving Repr, DecidableEq

/-- A requested deck card (`name`, optional `set`, `quantity`). -/
structure DeckCard where
  name : String
  set : Option String
  quantity : Nat
deriving Repr, DecidableEq

/-- Steps 1-3 of the per-card matching: exact case-insensitive name match,
else inventory-name-contains-request, else request-contains-inventory-name. -/
def matchStep (inv : List OutpostCard) (nm : String) : List OutpostCard :=
  let exact := inv.filter (fun c => jsToLower c.name == jsToLower nm)
  if exact ≠ [] then exact
  else
    let forward := inv.filter (fun c => strIncludes (jsToLower c.name) (jsToLower nm))
    if forward ≠ [] then forward
    else inv.filter (fun c => strIncludes (jsToLower nm) (jsToLower c.name))

/-- `outpostCard.conditions?.some(condition => condition.price > 0) || false`. -/
def hasPosPrice (c : OutpostCard) : Bool := c.conditions.any (fun o => decide (0 < o.price))

/-- The matched candidate set after the zero-price auto-exclusion
(store.ts lines 81-103). -/
def matchedCandidates (inv : List OutpostCard) (nm : String) : List OutpostCard :=
  (matchStep inv nm).filter hasPosPrice

/-- JS truthiness of an optional string (absent or `''` is falsy). -/
def truthy : Option String → Bool
  | none => false
  | some s => s ≠ ""

/-- `setMatches` of the `matchCardStyle` branch (store.ts lines 108-110). -/
def setCompat (ds cs : Option String) : Bool :=
  !truthy ds || !truthy cs ||
    strIncludes (jsToLower (attrD cs)) (jsToLower (attrD ds)) ||
    strIncludes (jsToLower (attrD ds)) (jsToLower (attrD cs))

/-- `availableCards` for one requested deck card after matching, the price
filter and the optional `matchCardStyle` refinement (which `analyzeDeck`
runs only when its flag - default `false` - is set). -/
def availableFor (inv : List OutpostCard) (card : DeckCard) (matchCardStyle : Bool) :
    List OutpostCard :=
  let m := matchedCandidates inv card.name
  if matchCardStyle then
    let matching := m.filter (fun oc => setCompat card.set oc.set)
    if matching ≠ [] then matching else m
  else m

/-- `const qualityOrder = ['NM/M', 'EX/GD', 'SP/P', 'HP', 'PR']`. -/
def qualityOrder : List String := ["NM/M", "EX/GD", "SP/P", "HP", "PR"]

/-- The `(card, condition)` pairs of one quality tier
(`flatMap` + `filter` + `map` of the tier loops); `needStock` selects the
first loop's additional `condition.stock > 0` filter. -/
def tierCandidates (cards : List OutpostCard) (q : String) (needStock : Bool) :
    List (OutpostCard × UICondition) :=
  cards.flatMap (fun c =>
    (c.conditions.filter (fun o =>
        o.condition == q && decide (0 < o.price) && (!needStock || decide (0 < o.stock)))).map
      (fun o => (c, o)))

/-- The tier loops' `reduce((best, current) => current.condition.price <
best.condition.price ? current : best)`. -/
def offerLt (a b : OutpostCard × UICondition) : Bool := a.2.price < b.2.price

/-- One of the two tier loops of `analyzeDeck` (store.ts lines 136-179):
the first quality in `qualityOrder` with candidates wins, taking the
cheapest candidate (earliest on ties). -/
def firstTierPick (cards : List OutpostCard) (needStock : Bool) :
    Option (OutpostCard × UICondition) :=
  qualityOrder.findSome? (fun q => pickMin offerLt (tierCandidates cards q needStock))

/-- The chosen best card/condition pair: the stocked loop, then (when it
found nothing, i.e. `bestPrice === 0`) the stock-ignoring loop. -/
def bestOffer (cards : List OutpostCard) : Option (OutpostCard × UICondition) :=
  match firstTierPick cards true with
  | some r => some r
  | none => firstTierPick cards false

/-! ## Collection enumerators -/

/-- An anchor element as the enumerators read it: `href` attribute and text. -/
structure Anchor where
  href : String
  text : String
deriving Repr, DecidableEq

/-- A discovered collection (`{id, name, url}`). -/
structure CollectionRef where
  id : String
  name : String
  url : String
deriving Repr, DecidableEq

/-- The first match of `/collectionid=(\d+)/` in a character list: the digit
capture.  A literal occurrence not followed by a digit fails there and the
scan resumes one position later, as the regex engine does. -/
def findIdCapture (pat : List Char) : List Char → Option (List Char)
  | [] => none
  | c :: rest =>
      if pat.isPrefixOf (c :: rest) then
        let ds := leadDigits ((c :: rest).drop pat.length)
        if ds.isEmpty then findIdCapture pat rest else some ds
      else findIdCapture pat rest

/-- `href.match(/collectionid=(\d+)/)`: the captured collection id. -/
def collectionIdOf (href : String) : Option String :=
  (findIdCapture "collectionid=".toList href.toList).map String.mk

/-- `getCollectionUrl` (scrape-outpost-complete.js lines 11-12). -/
def getCollectionUrl (cid : String) : String :=
  "https://www.outpost.be/website/index.php?option=com_outpostshop&Itemid=4&view=productlist&catalogid=1&collectionid="
    ++ cid

/-- The dedup key `` `${collectionId}-${name}` ``. -/
def dedupKey (cid nm : String) : String := cid ++ "-" ++ nm

/-- One anchor of the snapshot parser's loop: push the collection unless
its `` `${id}-${name}` `` key was already seen. -/
def snapshotStep (acc : List CollectionRef × List String) (a : Anchor) :
    List CollectionRef × List String :=
  let nm := jsTrim a.text
  if a.href ≠ "" ∧ nm ≠ "" then
    match collectionIdOf a.href with
    | some cid =>
        let key := dedupKey cid nm
        if key ∈ acc.2 then acc
        else (acc.1 ++ [{ id := cid, name := nm, url := getCollectionUrl cid }],
              acc.2 ++ [key])
    | none => acc
  else acc

/-- `parseCollectionsFromHTML` (scrape-outpost-complete.js lines 32-73):
the `.catalog_list_element a` anchors of the saved snapshot, keeping the
first occurrence of each `` `${id}-${name}` `` key. -/
def parseCollectionsFromHTML (anchors : List Anchor) : List CollectionRef :=
  (anchors.foldl snapshotStep ([], [])).1

/-- `parseCollections` (part_002 lines 134-172): the live catalog page's
`a[href*="collectionid="]` anchors; no deduplication, only the
name-length filter. -/
def parseCollectionsLive (anchors : List Anchor) : List CollectionRef :=
  anchors.foldl
    (fun acc a =>
      match collectionIdOf a.href with
      | some cid =>
          let nm := jsTrim a.text
          if nm ≠ "" ∧ 2 < nm.length then
            acc ++ [{ id := cid, name := nm,
                      url := if jsStartsWith a.href "http" then a.href
                             else "https://www.outpost.be/website/" ++ a.href }]
          else acc
      | none => acc)
    []

/-- `findIndex(p => name.includes(p))` mapped to a sort key: the index of
the first priority term contained in the name, or the list length when no
term matches (the comparator returns `-1`/`1`/`aIndex - bIndex`/`0`, which
is exactly comparison of this key). -/
def priorityKey (priorities : List String) (name : String) : Nat :=
  match priorities.findIdx? (fun p => strIncludes name p) with
  | some i => i
  | none => priorities.length

/-- The priority sort of `scrapeOutpost` (part_002 lines 265-273).
JS `Array.prototype.sort` is stable, and the comparator is induced by the
total key `priorityKey`, so the result is the unique stable order -
modelled by insertion sort over the key's preorder. -/
def prioritySort (priorities : List String) (cols : List CollectionRef) :
    List CollectionRef :=
  List.insertionSort
    (fun a b => priorityKey priorities a.name ≤ priorityKey priorities b.name) cols

/-- The order the specification describes: the key-`0` collections first
(in discovery order), then key `1`, ..., with the no-priority collections
(key = length of the priority list) last, still in discovery order. -/
def priorityBuckets (priorities : List String) (cols : List CollectionRef) :
    List CollectionRef :=
  (List.range (priorities.length + 1)).flatMap
    (fun i => cols.filter (fun c => priorityKey priorities c.name == i))

/-! ## Orchestrator abort handling (`scrapeAllCollections`,
scrape-outpost-complete.js lines 373-523)

The `catch` block (lines 505-522) guards its partial-output write with
`typeof allCards !== 'undefined'`.  Which binding that resolves to is a
question of JS lexical scoping, modelled here by the declaration lists of
the scope chain as transcribed from the source: `let`/`const` bindings are
visible only inside the block that declares them. -/

/-- Names `let`/`const`-declared directly in the `try` block of
`scrapeAllCollections` (lines 378-503).  `allCards` is among them: it is
declared at line 391, inside the `try` block. -/
def tryBlockDecls : List String :=
  ["allCollections", "progress", "processedCollectionIds", "skippedCollectionIds",
   "allCards", "collectionsProcessed", "skippedCollections", "collectionsToProcess",
   "uniqueCards", "output", "outputPath", "progressPath", "endTime", "duration"]

/-- Names declared in the function body outside the `try` statement
(line 374). -/
def fnBodyDecls : List String := ["startTime"]

/-- Names declared in the `catch` block itself (the catch parameter and
lines 511, 519). -/
def catchDecls : List String := ["error", "partialOutput", "outputPath"]

/-- Module-level declarations of scrape-outpost-complete.js. -/
def moduleDecls : List String :=
  ["fs", "path", "axios", "cheerio", "BASE_URL", "CATALOG_URL", "getCollectionUrl",
   "delay", "config", "parseCollectionsFromHTML", "hasCards", "scrapeCollectionWithRetry",
   "parseCardData", "scrapeCollection", "saveProgress", "loadProgress",
   "consolidateCards", "scrapeAllCollections"]

/-- The scope chain visible from inside the `catch` block: the catch block,
the function body, the module.  The `try` block is NOT on this chain - a
sibling block's declarations are not in scope. -/
def catchScopeChain : List (List String) := [catchDecls, fnBodyDecls, moduleDecls]

/-- Whether an identifier resolves to a declaration somewhere on a scope
chain. -/
def declaredInScope (chain : List (List String)) (x : String) : Bool :=
  chain.any (fun ds => ds.contains x)

/-- The reduced-shape output the `catch` block would write
(`{lastUpdated, totalCards, collectionsProcessed, isPartial: true, cards}`;
the timestamp is omitted from the model). -/
structure PartialOutput where
  totalCards : Nat
  collectionsProcessed : Nat
  isPartial : Bool
  cards : List AcceptedCard
deriving Repr, DecidableEq

/-- The `catch` block of `scrapeAllCollections` (lines 505-522): the file
it writes, if any.  `accumulated` is the card list the `try` block's
`allCards` variable held when the exception was thrown; the guard
`typeof allCards !== 'undefined' && allCards.length > 0` consults the
binding the *catch scope* resolves `allCards` to - which exists only if
`"allCards"` is declared on the catch block's scope chain (`typeof` of an
unresolvable identifier is the string `'undefined'` and the conjunction
short-circuits to `false`). -/
def catchHandlerOutputOn (chain : List (List String))
    (accumulated : List AcceptedCard) (processed : Nat) : Option PartialOutput :=
  let binding : Option (List AcceptedCard) :=
    if declaredInScope chain "allCards" then some accumulated else none
  match binding with
  | some cs =>
      if 0 < cs.length then
        some { totalCards := cs.length, collectionsProcessed := processed,
               isPartial := true, cards := cs }
      else none
  | none => none

/-- The catch handler on the scope chain the source actually gives it. -/
def catchHandlerOutput (accumulated : List AcceptedCard) (processed : Nat) :
    Option PartialOutput :=
  catchHandlerOutputOn catchScopeChain accumulated processed

/-! ## Lemmas about `pickMin` (the head of a JS stable sort) -/

theorem foldPick_nil {α : Type} (lt : α → α → Bool) (c : α) : foldPick lt [] c = c := rfl

theorem foldPick_cons {α : Type} (lt : α → α → Bool) (a : α) (l : List α) (c : α) :
    foldPick lt (a :: l) c = foldPick lt l (if lt a c then a else c) := rfl

theorem foldPick_mem {α : Type} (lt : α → α → Bool) (l : List α) (c : α) :
    foldPick lt l c = c ∨ foldPick lt l c ∈ l := by
  induction l generalizing c with
  | nil => exact Or.inl rfl
  | cons a l ih =>
      by_cases hlt : lt a c = true
      · rw [foldPick_cons, if_pos hlt]
        rcases ih a with h | h
        · exact Or.inr (List.mem_cons.mpr (Or.inl h))
        · exact Or.inr (List.mem_cons.mpr (Or.inr h))
      · rw [foldPick_cons, if_neg hlt]
        rcases ih c with h | h
        · exact Or.inl h
        · exact Or.inr (List.mem_cons.mpr (Or.inr h))

theorem foldPick_min {α : Type} (κ : α → Int) (lt : α → α → Bool)
    (hκ : ∀ a b, lt a b = true ↔ κ a < κ b) (l : List α) (c : α) :
    κ (foldPick lt l c) ≤ κ c ∧ ∀ x ∈ l, κ (foldPick lt l c) ≤ κ x := by
  induction l generalizing c with
  | nil => exact ⟨le_refl _, by intro x hx; cases hx⟩
  | cons a l ih =>
      by_cases hlt : lt a c = true
      · rw [foldPick_cons, if_pos hlt]
        have hac : κ a < κ c := (hκ a c).mp hlt
        refine ⟨le_of_lt (lt_of_le_of_lt (ih a).1 hac), ?_⟩
        intro x hx
        rcases List.mem_cons.mp hx with h | h
        · exact h ▸ (ih a).1
        · exact (ih a).2 x h
      · rw [foldPick_cons, if_neg hlt]
        have hca : κ c ≤ κ a := le_of_not_lt (fun hc => hlt ((hκ a c).mpr hc))
        refine ⟨(ih c).1, ?_⟩
        intro x hx
        rcases List.mem_cons.mp hx with h | h
        · exact h ▸ le_trans (ih c).1 hca
        · exact (ih c).2 x h

theorem foldPick_first {α : Type} (κ : α → Int) (lt : α → α → Bool)
    (hκ : ∀ a b, lt a b = true ↔ κ a < κ b) (l : List α) (c : α) :
    foldPick lt l c = c ∨
      ∃ l₁ l₂, l = l₁ ++ foldPick lt l c :: l₂ ∧ κ (foldPick lt l c) < κ c ∧
        ∀ x ∈ l₁, κ (foldPick lt l c) < κ x := by
  induction l generalizing c with
  | nil => exact Or.inl rfl
  | cons a l ih =>
      by_cases hlt : lt a c = true
      · rw [foldPick_cons, if_pos hlt]
        have hac : κ a < κ c := (hκ a c).mp hlt
        rcases ih a with h | ⟨l₁, l₂, hl, hlt2, hall⟩
        · refine Or.inr ⟨[], l, ?_, ?_, ?_⟩
          · rw [h, List.nil_append]
          · rw [h]; exact hac
          · intro x hx; cases hx
        · refine Or.inr ⟨a :: l₁, l₂, ?_, lt_trans hlt2 hac, ?_⟩
          · rw [List.cons_append, ← hl]
          · intro x hx
            rcases List.mem_cons.mp hx with h2 | h2
            · exact h2 ▸ hlt2
            · exact hall x h2
      · rw [foldPick_cons, if_neg hlt]
        have hca : κ c ≤ κ a := le_of_not_lt (fun hc => hlt ((hκ a c).mpr hc))
        rcases ih c with h | ⟨l₁, l₂, hl, hlt2, hall⟩
        · exact Or.inl h
        · refine Or.inr ⟨a :: l₁, l₂, ?_, hlt2, ?_⟩
          · rw [List.cons_append, ← hl]
          · intro x hx
            rcases List.mem_cons.mp hx with h2 | h2
            · exact h2 ▸ lt_of_lt_of_le hlt2 hca
            · exact hall x h2

theorem pickMin_mem {α : Type} {lt : α → α → Bool} {l : List α} {b : α}
    (h : pickMin lt l = some b) : b ∈ l := by
  cases l with
  | nil => cases h
  | cons c rest =>
      rw [pickMin] at h
      injection h with h
      rcases foldPick_mem lt rest c with h2 | h2
      · exact List.mem_cons.mpr (Or.inl (h ▸ h2))
      · exact List.mem_cons.mpr (Or.inr (h ▸ h2))

theorem pickMin_isSome {α : Type} (lt : α → α → Bool) (l : List α) (h : l ≠ []) :
    (pickMin lt l).isSome = true := by
  cases l with
  | nil => exact absurd rfl h
  | cons c rest => rfl

theorem pickMin_eq_none {α : Type} (lt : α → α → Bool) :
    pickMin lt ([] : List α) = none := rfl

theorem pickMin_min {α : Type} (κ : α → Int) (lt : α → α → Bool)
    (hκ : ∀ a b, lt a b = true ↔ κ a < κ b) {l : List α} {b : α}
    (h : pickMin lt l = some b) : ∀ x ∈ l, κ b ≤ κ x := by
  cases l with
  | nil => cases h
  | cons c rest =>
      rw [pickMin] at h
      injection h with h
      intro x hx
      rcases List.mem_cons.mp hx with h2 | h2
      · exact h2 ▸ h ▸ (foldPick_min κ lt hκ rest c).1
      · exact h ▸ (foldPick_min κ lt hκ rest c).2 x h2

theorem pickMin_first {α : Type} (κ : α → Int) (lt : α → α → Bool)
    (hκ : ∀ a b, lt a b = true ↔ κ a < κ b) {l : List α} {b : α}
    (h : pickMin lt l = some b) :
    ∃ l₁ l₂, l = l₁ ++ b :: l₂ ∧ ∀ x ∈ l₁, κ b < κ x := by
  cases l with
  | nil => cases h
  | cons c rest =>
      rw [pickMin] at h
      injection h with h
      subst h
      rcases foldPick_first κ lt hκ rest c with h | ⟨l₁, l₂, hl, hlt2, hall⟩
      · refine ⟨[], rest, ?_, ?_⟩
        · rw [h, List.nil_append]
        · intro x hx; cases hx
      · refine ⟨c :: l₁, l₂, ?_, ?_⟩
        · rw [List.cons_append, ← hl]
        · intro x hx
          rcases List.mem_cons.mp hx with h2 | h2
          · exact h2 ▸ hlt2
          · exact hall x h2

/-! ## Comparator keys: each JS comparator in the source is induced by a
total numeric key, which is what makes the stable-sort head well defined -/

/-- The (price, foil) lexicographic key of the priority-1 comparator,
packed into one integer (the foil bit is the low bit). -/
def availKey (c : RawCard) : Int := 2 * c.price + (if c.foil then 1 else 0)

theorem availLt_iff (a b : RawCard) : availLt a b = true ↔ availKey a < availKey b := by
  unfold availLt availKey
  cases ha : a.foil <;> cases hb : b.foil <;>
    simp [ha, hb, Bool.or_eq_true, Bool.and_eq_true, decide_eq_true_eq, beq_iff_eq] <;>
    omega

theorem rawPriceLt_iff (a b : RawCard) : rawPriceLt a b = true ↔ a.price < b.price := by
  unfold rawPriceLt
  simp [decide_eq_true_eq]

theorem offerLt_iff (a b : OutpostCard × UICondition) :
    offerLt a b = true ↔ a.2.price < b.2.price := by
  unfold offerLt
  simp [decide_eq_true_eq]

/-! ## Lemmas about `bestCard` and `consolidateCards` -/

theorem mem_availableOf {v : List RawCard} {c : RawCard} :
    c ∈ availableOf v ↔ c ∈ v ∧ 0 < c.stock ∧ 0 < c.price := by
  unfold availableOf
  simp [List.mem_filter, Bool.and_eq_true, decide_eq_true_eq, and_assoc]

theorem mem_validPriceOf {v : List RawCard} {c : RawCard} :
    c ∈ validPriceOf v ↔ c ∈ v ∧ 0 < c.price := by
  unfold validPriceOf
  simp [List.mem_filter, decide_eq_true_eq]

theorem bestCard_mem {v : List RawCard} {b : RawCard} (h : bestCard v = some b) : b ∈ v := by
  unfold bestCard at h
  by_cases ha : availableOf v ≠ []
  · rw [if_pos ha] at h
    exact (mem_availableOf.mp (pickMin_mem h)).1
  · rw [if_neg ha] at h
    exact (mem_validPriceOf.mp (pickMin_mem h)).1

theorem bestCard_isSome {v : List RawCard} {c : RawCard} (hc : c ∈ v) (hp : 0 < c.price) :
    ∃ b, bestCard v = some b := by
  unfold bestCard
  by_cases ha : availableOf v ≠ []
  · rw [if_pos ha]
    exact Option.isSome_iff_exists.mp (pickMin_isSome _ _ ha)
  · rw [if_neg ha]
    have hv : validPriceOf v ≠ [] := by
      intro hnil
      have : c ∈ validPriceOf v := mem_validPriceOf.mpr ⟨hc, hp⟩
      rw [hnil] at this
      cases this
    exact Option.isSome_iff_exists.mp (pickMin_isSome _ _ hv)

theorem mem_addKey_self (ks : List String) (k : String) : k ∈ addKey ks k := by
  unfold addKey
  by_cases h : k ∈ ks
  · rw [if_pos h]; exact h
  · rw [if_neg h]; exact List.mem_append.mpr (Or.inr (List.mem_singleton.mpr rfl))

theorem mem_addKey_of_mem {ks : List String} {k : String} (k' : String) (h : k ∈ ks) :
    k ∈ addKey ks k' := by
  unfold addKey
  by_cases h' : k' ∈ ks
  · rw [if_pos h']; exact h
  · rw [if_neg h']; exact List.mem_append.mpr (Or.inl h)

theorem addKey_nodup {ks : List String} (k : String) (h : ks.Nodup) : (addKey ks k).Nodup := by
  unfold addKey
  by_cases h' : k ∈ ks
  · rw [if_pos h']; exact h
  · rw [if_neg h']
    exact List.nodup_append.mpr ⟨h, List.nodup_singleton k,
      fun a ha hb => h' ((List.mem_singleton.mp hb) ▸ ha)⟩

theorem groupKeys_fold_mem (cards : List RawCard) :
    ∀ (ks : List String) (k : String), k ∈ ks →
      k ∈ cards.foldl (fun a c => addKey a (groupKey c)) ks := by
  induction cards with
  | nil => intro ks k h; exact h
  | cons c cards ih =>
      intro ks k h
      exact ih (addKey ks (groupKey c)) k (mem_addKey_of_mem _ h)

theorem groupKeys_fold_mem_card (cards : List RawCard) :
    ∀ (ks : List String) (c : RawCard), c ∈ cards →
      groupKey c ∈ cards.foldl (fun a d => addKey a (groupKey d)) ks := by
  induction cards with
  | nil => intro ks c hc; cases hc
  | cons d cards ih =>
      intro ks c hc
      rcases List.mem_cons.mp hc with h | h
      · subst h
        exact groupKeys_fold_mem cards _ _ (mem_addKey_self ks (groupKey c))
      · exact ih (addKey ks (groupKey d)) c h

theorem mem_groupKeys {cards : List RawCard} {c : RawCard} (hc : c ∈ cards) :
    groupKey c ∈ groupKeys cards :=
  groupKeys_fold_mem_card cards [] c hc

theorem groupKeys_nodup (cards : List RawCard) : (groupKeys cards).Nodup := by
  unfold groupKeys
  have : ∀ (ks : List String), ks.Nodup →
      (cards.foldl (fun a c => addKey a (groupKey c)) ks).Nodup := by
    induction cards with
    | nil => intro ks h; exact h
    | cons c cards ih => intro ks h; exact ih _ (addKey_nodup _ h)
  exact this [] List.nodup_nil

theorem mem_groupOf {cards : List RawCard} {k : String} {c : RawCard} :
    c ∈ groupOf cards k ↔ c ∈ cards ∧ groupKey c = k := by
  unfold groupOf
  simp [List.mem_filter, beq_iff_eq]

/-- The unique-output lemma behind "exactly one canonical record per group":
filtering a `filterMap` over distinct keys down to one key leaves exactly
the record that key produced. -/
theorem filterMap_keyed_filter {L : List String} {f : String → Option RawCard}
    {k : String} {b : RawCard}
    (hnd : L.Nodup) (hk : k ∈ L) (hfk : f k = some b)
    (htag : ∀ k' ∈ L, ∀ b', f k' = some b' → groupKey b' = k') :
    (L.filterMap f).filter (fun c => groupKey c == k) = [b] := by
  induction L with
  | nil => cases hk
  | cons t L ih =>
      have hnd' := List.nodup_cons.mp hnd
      rcases List.mem_cons.mp hk with hkt | hkL
      · subst hkt
        rw [List.filterMap_cons, hfk]
        have hb : groupKey b = k := htag k (List.mem_cons_self _ _) b hfk
        rw [List.filter_cons_of_pos (by simp [hb])]
        have hrest : (L.filterMap f).filter (fun c => groupKey c == k) = [] := by
          rw [List.filter_eq_nil_iff]
          intro a ha
          rcases List.mem_filterMap.mp ha with ⟨k', hk', hfk'⟩
          have := htag k' (List.mem_cons.mpr (Or.inr hk')) a hfk'
          simp only [beq_iff_eq, this]
          intro he
          exact hnd'.1 (he ▸ hk')
        rw [hrest]
      · have ht : t ≠ k := fun he => hnd'.1 (he ▸ hkL)
        have ihr := ih hnd'.2 hkL
          (fun k' hk' b' hf => htag k' (List.mem_cons.mpr (Or.inr hk')) b' hf)
        rw [List.filterMap_cons]
        cases hft : f t with
        | none => exact ihr
        | some bt =>
            have hbt : groupKey bt = t := htag t (List.mem_cons_self _ _) bt hft
            rw [List.filter_cons_of_neg (by simp [hbt, ht])]
            exact ihr

theorem availKey_le_price {b c : RawCard} (h : availKey b ≤ availKey c) :
    b.price ≤ c.price := by
  unfold availKey at h
  cases hb : b.foil <;> cases hc : c.foil <;> simp [hb, hc] at h <;> omega

theorem availKey_tie_foil {b c : RawCard} (h : availKey b ≤ availKey c)
    (hp : b.price = c.price) (hf : b.foil = true) : c.foil = true := by
  unfold availKey at h
  cases hc : c.foil
  · rw [hf, hc] at h; exfalso; simp at h; omega
  · rfl

theorem availKey_lt_cases {b c : RawCard} (h : availKey b < availKey c) :
    b.price < c.price ∨ (b.price = c.price ∧ b.foil = false ∧ c.foil = true) := by
  unfold availKey at h
  cases hb : b.foil <;> cases hc : c.foil <;> rw [hb, hc] at h <;> simp at h <;>
    first
      | exact Or.inl (by omega)
      | (by_cases hp : b.price = c.price
         · exact Or.inr ⟨hp, rfl, rfl⟩
         · exact Or.inl (by omega))

/-- C1 (counterexample): in a group whose stock-positive record is pricier
than a stock-zero price-positive record, `consolidateCards` returns the
stock-positive record, whose price is NOT ≤ every price-positive record's
price in the group - refuting the claim as stated. -/
theorem c1_counterexample :
    consolidateCards [⟨"Sol Ring", 300, 1, false⟩, ⟨"Sol Ring", 100, 0, false⟩]
        = [⟨"Sol Ring", 300, 1, false⟩] ∧
      (⟨"Sol Ring", 100, 0, false⟩ : RawCard) ∈
        groupOf [⟨"Sol Ring", 300, 1, false⟩, ⟨"Sol Ring", 100, 0, false⟩]
          (groupKey ⟨"Sol Ring", 300, 1, false⟩) ∧
      (0 : Int) < 100 ∧ ¬ ((300 : Int) ≤ 100) := by decide

/-- C1 (amended): for every group key with at least one price-positive
record, `consolidateCards` emits exactly one record for that key, and that
record's price is ≤ every price-positive record *of the subset it was
selected from*: the stock-and-price-positive subset when that subset is
non-empty, otherwise all price-positive records of the group. -/
theorem c1_amended (cards : List RawCard) (k : String) (c₀ : RawCard)
    (hc₀ : c₀ ∈ cards) (hkey : groupKey c₀ = k) (hpos : 0 < c₀.price) :
    ∃ b, bestCard (groupOf cards k) = some b ∧
      (consolidateCards cards).filter (fun c => groupKey c == k) = [b] ∧
      (availableOf (groupOf cards k) ≠ [] →
        ∀ c ∈ groupOf cards k, 0 < c.stock → 0 < c.price → b.price ≤ c.price) ∧
      (availableOf (groupOf cards k) = [] →
        ∀ c ∈ groupOf cards k, 0 < c.price → b.price ≤ c.price) := by
  have hcg : c₀ ∈ groupOf cards k := mem_groupOf.mpr ⟨hc₀, hkey⟩
  obtain ⟨b, hb⟩ := bestCard_isSome hcg hpos
  refine ⟨b, hb, ?_, ?_, ?_⟩
  · unfold consolidateCards
    exact filterMap_keyed_filter (groupKeys_nodup cards) (hkey ▸ mem_groupKeys hc₀) hb
      (fun k' _ b' h' => (mem_groupOf.mp (bestCard_mem h')).2)
  · intro hne c hcmem hcs hcp
    unfold bestCard at hb
    rw [if_pos hne] at hb
    exact availKey_le_price
      (pickMin_min availKey availLt availLt_iff hb c (mem_availableOf.mpr ⟨hcmem, hcs, hcp⟩))
  · intro hemp c hcmem hcp
    unfold bestCard at hb
    rw [if_neg (by simp [hemp])] at hb
    exact pickMin_min (fun c => c.price) rawPriceLt rawPriceLt_iff hb c
      (mem_validPriceOf.mpr ⟨hcmem, hcp⟩)

/-- Witness for C1 (amended) at a one-record group. -/
theorem c1_amended_witness :
    ∃ b, bestCard (groupOf [(⟨"Sol Ring", 300, 1, false⟩ : RawCard)] "sol ring") = some b ∧
      (consolidateCards [(⟨"Sol Ring", 300, 1, false⟩ : RawCard)]).filter
          (fun c => groupKey c == "sol ring") = [b] ∧
      (availableOf (groupOf [(⟨"Sol Ring", 300, 1, false⟩ : RawCard)] "sol ring") ≠ [] →
        ∀ c ∈ groupOf [(⟨"Sol Ring", 300, 1, false⟩ : RawCard)] "sol ring",
          0 < c.stock → 0 < c.price → b.price ≤ c.price) ∧
      (availableOf (groupOf [(⟨"Sol Ring", 300, 1, false⟩ : RawCard)] "sol ring") = [] →
        ∀ c ∈ groupOf [(⟨"Sol Ring", 300, 1, false⟩ : RawCard)] "sol ring",
          0 < c.price → b.price ≤ c.price) :=
  c1_amended [⟨"Sol Ring", 300, 1, false⟩] "sol ring" ⟨"Sol Ring", 300, 1, false⟩
    (by decide) (by decide) (by decide)

/-- C2 (counterexample): in a group with no stock anywhere, two records tie
on price with the foil one first in input order; the claim's "non-foil
beats foil on a price tie within the chosen subset" demands the non-foil
record, but the price-only fallback sort ignores foil and keeps the first
record - the foil one. -/
theorem c2_counterexample :
    bestCard [⟨"Sol Ring", 500, 0, true⟩, ⟨"Sol Ring", 500, 0, false⟩]
        = some ⟨"Sol Ring", 500, 0, true⟩ ∧
      consolidateCards [⟨"Sol Ring", 500, 0, true⟩, ⟨"Sol Ring", 500, 0, false⟩]
        = [⟨"Sol Ring", 500, 0, true⟩] ∧
      (⟨"Sol Ring", 500, 0, false⟩ : RawCard) ∈
        validPriceOf [⟨"Sol Ring", 500, 0, true⟩, ⟨"Sol Ring", 500, 0, false⟩] ∧
      availableOf [⟨"Sol Ring", 500, 0, true⟩, ⟨"Sol Ring", 500, 0, false⟩] = [] := by
  decide

/-- C2 (amended): the subset-selection order is as claimed - the
stock-and-price-positive subset first, else the price-positive subset,
else the group is dropped - and the claimed Sol Ring scenario holds; but
the non-foil-beats-foil tie-break applies only when selecting from the
stock-positive subset.  In the price-only fallback, ties are broken by
input order alone. -/
theorem c2_amended :
    (bestCard [⟨"Sol Ring", 500, 0, false⟩, ⟨"Sol Ring", 500, 2, true⟩]
        = some ⟨"Sol Ring", 500, 2, true⟩) ∧
    ∀ variants : List RawCard,
      (availableOf variants ≠ [] →
        ∃ b, bestCard variants = some b ∧ b ∈ availableOf variants ∧
          (∀ c ∈ availableOf variants, b.price ≤ c.price) ∧
          (∀ c ∈ availableOf variants, b.price = c.price → b.foil = true → c.foil = true) ∧
          ∃ l₁ l₂, availableOf variants = l₁ ++ b :: l₂ ∧
            ∀ c ∈ l₁, b.price < c.price ∨
              (b.price = c.price ∧ b.foil = false ∧ c.foil = true)) ∧
      (availableOf variants = [] → validPriceOf variants ≠ [] →
        ∃ b, bestCard variants = some b ∧ b ∈ validPriceOf variants ∧
          (∀ c ∈ validPriceOf variants, b.price ≤ c.price) ∧
          ∃ l₁ l₂, validPriceOf variants = l₁ ++ b :: l₂ ∧
            ∀ c ∈ l₁, b.price < c.price) ∧
      (availableOf variants = [] → validPriceOf variants = [] →
        bestCard variants = none) := by
  refine ⟨by decide, ?_⟩
  intro variants
  refine ⟨?_, ?_, ?_⟩
  · intro hne
    have hb : bestCard variants = pickMin availLt (availableOf variants) := by
      unfold bestCard; rw [if_pos hne]
    cases hpick : pickMin availLt (availableOf variants) with
    | none =>
        exfalso
        have := pickMin_isSome availLt (availableOf variants) hne
        rw [hpick] at this
        cases this
    | some b =>
        refine ⟨b, by rw [hb, hpick], pickMin_mem hpick, ?_, ?_, ?_⟩
        · intro c hc
          exact availKey_le_price (pickMin_min availKey availLt availLt_iff hpick c hc)
        · intro c hc hpe hbf
          exact availKey_tie_foil (pickMin_min availKey availLt availLt_iff hpick c hc) hpe hbf
        · obtain ⟨l₁, l₂, heq, hall⟩ := pickMin_first availKey availLt availLt_iff hpick
          exact ⟨l₁, l₂, heq, fun c hc => availKey_lt_cases (hall c hc)⟩
  · intro hemp hvne
    have hb : bestCard variants = pickMin rawPriceLt (validPriceOf variants) := by
      unfold bestCard; rw [if_neg (by simp [hemp])]
    cases hpick : pickMin rawPriceLt (validPriceOf variants) with
    | none =>
        exfalso
        have := pickMin_isSome rawPriceLt (validPriceOf variants) hvne
        rw [hpick] at this
        cases this
    | some b =>
        refine ⟨b, by rw [hb, hpick], pickMin_mem hpick, ?_, ?_⟩
        · intro c hc
          exact pickMin_min (fun c => c.price) rawPriceLt rawPriceLt_iff hpick c hc
        · obtain ⟨l₁, l₂, heq, hall⟩ :=
            pickMin_first (fun c => c.price) rawPriceLt rawPriceLt_iff hpick
          exact ⟨l₁, l₂, heq, hall⟩
  · intro hemp hvemp
    unfold bestCard
    rw [if_neg (by simp [hemp]), hvemp]
    rfl

/-- Witness for C2 (amended): the stock-positive branch at the Sol Ring
scenario input, and the fallback branch at a no-stock tie. -/
theorem c2_amended_witness :
    (∃ b, bestCard [(⟨"Sol Ring", 500, 0, false⟩ : RawCard), ⟨"Sol Ring", 500, 2, true⟩]
        = some b ∧
      b ∈ availableOf [(⟨"Sol Ring", 500, 0, false⟩ : RawCard), ⟨"Sol Ring", 500, 2, true⟩] ∧
      (∀ c ∈ availableOf [(⟨"Sol Ring", 500, 0, false⟩ : RawCard), ⟨"Sol Ring", 500, 2, true⟩],
        b.price ≤ c.price) ∧
      (∀ c ∈ availableOf [(⟨"Sol Ring", 500, 0, false⟩ : RawCard), ⟨"Sol Ring", 500, 2, true⟩],
        b.price = c.price → b.foil = true → c.foil = true) ∧
      ∃ l₁ l₂,
        availableOf [(⟨"Sol Ring", 500, 0, false⟩ : RawCard), ⟨"Sol Ring", 500, 2, true⟩]
          = l₁ ++ b :: l₂ ∧
        ∀ c ∈ l₁, b.price < c.price ∨
          (b.price = c.price ∧ b.foil = false ∧ c.foil = true)) ∧
    (∃ b, bestCard [(⟨"Sol Ring", 500, 0, true⟩ : RawCard), ⟨"Sol Ring", 500, 0, false⟩]
        = some b ∧
      b ∈ validPriceOf [(⟨"Sol Ring", 500, 0, true⟩ : RawCard), ⟨"Sol Ring", 500, 0, false⟩] ∧
      (∀ c ∈ validPriceOf [(⟨"Sol Ring", 500, 0, true⟩ : RawCard), ⟨"Sol Ring", 500, 0, false⟩],
        b.price ≤ c.price) ∧
      ∃ l₁ l₂,
        validPriceOf [(⟨"Sol Ring", 500, 0, true⟩ : RawCard), ⟨"Sol Ring", 500, 0, false⟩]
          = l₁ ++ b :: l₂ ∧
        ∀ c ∈ l₁, b.price < c.price) :=
  ⟨(c2_amended.2 [⟨"Sol Ring", 500, 0, false⟩, ⟨"Sol Ring", 500, 2, true⟩]).1 (by decide),
   (c2_amended.2 [⟨"Sol Ring", 500, 0, true⟩, ⟨"Sol Ring", 500, 0, false⟩]).2.1
     (by decide) (by decide)⟩

/-- A sample accumulated card for evaluating the abort path: the record the
extractor produces for a minimal well-formed container. -/
def sampleAccumulatedCard : AcceptedCard :=
  { data := parseCardData
      { elnm := some "Sol Ring", alphabet := none, magicrarity := some "U",
        foilAttr := none, cw := none, cu := none, cb := none, cr := none,
        cg := none, cnocol := none,
        sales := [⟨"NM/M", some ⟨"ostk7", "2"⟩, "1.20 €"⟩],
        setText := some "Commander", priceAttr := none, imageSrc := none,
        detailHref := none },
    collection := "Commander", collectionId := "42" }

/-- C3: the claim says an abort after at least one accumulated card writes a
partial output marked `isPartial: true`.  The code never does: `allCards`
is `let`-declared inside the `try` block, so the `catch` block's
`typeof allCards` is `'undefined'` and the guarded write is dead code.  On
the scope chain the author evidently assumed (the `try` block's
declarations visible), the very same handler would have produced the
claimed `isPartial: true` output - the block scoping is the bug. -/
theorem c3_partial_write_dead :
    (∀ (accumulated : List AcceptedCard) (processed : Nat),
        catchHandlerOutput accumulated processed = none) ∧
    catchHandlerOutput [sampleAccumulatedCard] 3 = none ∧
    catchHandlerOutputOn (catchScopeChain ++ [tryBlockDecls]) [sampleAccumulatedCard] 3
      = some { totalCards := 1, collectionsProcessed := 3, isPartial := true,
               cards := [sampleAccumulatedCard] } := by
  refine ⟨?_, by decide, by decide⟩
  intro accumulated processed
  unfold catchHandlerOutput catchHandlerOutputOn
  rw [if_neg (by decide)]

/-- The `conditions` array is the filtered sale-row loop output. -/
theorem parseCardData_conditions (el : CardContainer) :
    (parseCardData el).conditions = el.sales.filterMap saleToCondition := rfl

/-- C10: a sale row whose condition label is empty after trimming yields no
offer, whatever its price and stock parse to. -/
theorem c10_empty_condition_label (r : SaleRow) (h : jsTrim r.quality = "") :
    saleToCondition r = none := by
  simp only [saleToCondition, h]
  rw [if_neg]
  intro hcon
  exact hcon.1 rfl

/-- Witness for C10: a whitespace-only label with positive parsed price and
stock still contributes nothing. -/
theorem c10_empty_condition_label_witness :
    (jsTrim "  " = "" ∧
      0 < parsePriceCents (jsTrim "2.00 €") ∧
      stockPos (saleStock ⟨"  ", some ⟨"ostk9", "4"⟩, "2.00 €"⟩) = true) ∧
    saleToCondition ⟨"  ", some ⟨"ostk9", "4"⟩, "2.00 €"⟩ = none :=
  ⟨by decide, c10_empty_condition_label ⟨"  ", some ⟨"ostk9", "4"⟩, "2.00 €"⟩ (by decide)⟩

/-- The container of the C6 scenario: one NM/M row with stock 3 at
"1.50 €" and one HP row with stock 0 at "0.00 €". -/
def c6Container : CardContainer :=
  { elnm := some "Scenario Card", alphabet := none, magicrarity := some "R",
    foilAttr := none, cw := none, cu := none, cb := none, cr := none, cg := none,
    cnocol := none,
    sales := [⟨"NM/M", some ⟨"ostk1", "3"⟩, "1.50 €"⟩,
              ⟨"HP", some ⟨"ostk2", "0"⟩, "0.00 €"⟩],
    setText := some "SetX", priceAttr := none, imageSrc := none, detailHref := none }

/-- C6: every extracted offer has a positive price or positive stock
(all-zero rows are dropped), and the two-row scenario yields exactly one
offer, (NM/M, 150 cents, stock 3). -/
theorem c6_offer_invariant :
    (∀ (el : CardContainer), ∀ o ∈ (parseCardData el).conditions,
        0 < o.price ∨ stockPos o.stock = true) ∧
    (parseCardData c6Container).conditions = [⟨"NM/M", 150, some 3, "1.50 €", "1"⟩] := by
  refine ⟨?_, by decide⟩
  intro el o ho
  rw [parseCardData_conditions] at ho
  rcases List.mem_filterMap.mp ho with ⟨r, hr, hsome⟩
  simp only [saleToCondition] at hsome
  split_ifs at hsome with hcond
  · injection hsome with he
    subst he
    rcases hcond.2 with hp | hs
    · exact Or.inl hp
    · exact Or.inr hs

/-- Witness for C6: the invariant evaluated at the scenario container and
its single offer. -/
theorem c6_offer_invariant_witness :
    (⟨"NM/M", 150, some 3, "1.50 €", "1"⟩ : ConditionOffer) ∈
        (parseCardData c6Container).conditions ∧
      (0 < (⟨"NM/M", 150, some 3, "1.50 €", "1"⟩ : ConditionOffer).price ∨
        stockPos (⟨"NM/M", 150, some 3, "1.50 €", "1"⟩ : ConditionOffer).stock = true) :=
  ⟨by decide, c6_offer_invariant.1 c6Container _ (by decide)⟩

/-- The tallies the `scrapeCollection` loop accumulates: each container
failing a check is counted under that check's reason (a container can be
counted under several reasons; any failure also rejects it). -/
def countReasons (els : List CardContainer) : SkipReasons :=
  { noName := els.countP (fun el => !hasValidName (parseCardData el))
    noPrice := els.countP (fun el => !hasValidPrice (parseCardData el))
    noConditions := els.countP (fun el => !hasValidConditions (parseCardData el))
    noSet := els.countP (fun el => !hasValidSet (parseCardData el)) }

/-- Componentwise sum of tallies. -/
def addReasons (r s : SkipReasons) : SkipReasons :=
  { noName := r.noName + s.noName, noPrice := r.noPrice + s.noPrice,
    noConditions := r.noConditions + s.noConditions, noSet := r.noSet + s.noSet }

theorem scrapeStep_pos {colName colId : String} {el : CardContainer}
    (acc : List AcceptedCard × SkipReasons)
    (hok : (hasValidName (parseCardData el) && hasValidPrice (parseCardData el) &&
      hasValidConditions (parseCardData el) && hasValidSet (parseCardData el)) = true) :
    scrapeStep colName colId acc el
      = (acc.1 ++ [{ data := parseCardData el, collection := colName,
                     collectionId := colId }], acc.2) := by
  unfold scrapeStep
  rw [if_pos hok]

theorem scrapeStep_neg {colName colId : String} {el : CardContainer}
    (acc : List AcceptedCard × SkipReasons)
    (hok : ¬ (hasValidName (parseCardData el) && hasValidPrice (parseCardData el) &&
      hasValidConditions (parseCardData el) && hasValidSet (parseCardData el)) = true) :
    scrapeStep colName colId acc el = (acc.1, bumpReasons acc.2 (parseCardData el)) := by
  unfold scrapeStep
  rw [if_neg hok]

theorem scrapeCollectionPure_fold (colName colId : String) :
    ∀ (els : List CardContainer) (accL : List AcceptedCard) (accR : SkipReasons),
      els.foldl (scrapeStep colName colId) (accL, accR)
        = (accL ++ els.filterMap (acceptCard colName colId),
           addReasons accR (countReasons els)) := by
  intro els
  induction els with
  | nil =>
      intro accL accR
      cases accR
      simp [countReasons, addReasons]
  | cons el els ih =>
      intro accL accR
      rw [List.foldl_cons]
      by_cases hok : (hasValidName (parseCardData el) && hasValidPrice (parseCardData el) &&
          hasValidConditions (parseCardData el) && hasValidSet (parseCardData el)) = true
      · have hacc : acceptCard colName colId el
            = some { data := parseCardData el, collection := colName, collectionId := colId } := by
          unfold acceptCard
          rw [if_pos hok]
        rw [scrapeStep_pos (accL, accR) hok, ih, List.filterMap_cons, hacc, Prod.mk.injEq]
        have h4 := hok
        simp only [Bool.and_eq_true] at h4
        refine ⟨?_, ?_⟩
        · rw [List.append_assoc, List.singleton_append]
        · cases accR
          simp [countReasons, addReasons, List.countP_cons, h4.1.1.1, h4.1.1.2, h4.1.2, h4.2]
      · have hacc : acceptCard colName colId el = none := by
          unfold acceptCard
          rw [if_neg hok]
        rw [scrapeStep_neg (accL, accR) hok, ih, List.filterMap_cons, hacc, Prod.mk.injEq]
        refine ⟨rfl, ?_⟩
        cases accR
        unfold bumpReasons addReasons countReasons
        simp only [List.countP_cons]
        cases hn : hasValidName (parseCardData el) <;>
          cases hp : hasValidPrice (parseCardData el) <;>
            cases hc : hasValidConditions (parseCardData el) <;>
              cases hs : hasValidSet (parseCardData el) <;>
                simp [hn, hp, hc, hs] <;> omega

/-- `scrapeCollection`'s loop output: the accepted records are exactly the
containers passing all four checks, and the tallies count each failed
check. -/
theorem scrapeCollectionPure_eq (colName colId : String) (els : List CardContainer) :
    scrapeCollectionPure colName colId els
      = (els.filterMap (acceptCard colName colId), countReasons els) := by
  unfold scrapeCollectionPure
  rw [scrapeCollectionPure_fold]
  cases h : countReasons els
  simp [addReasons]

/-- C7: the loop's output pair is exactly (accepted records, tallies), and
every accepted record has a non-empty name, at least one condition offer, a
positive price (the cached cheapest price), and a non-empty set label. -/
theorem c7_accept_invariant (colName colId : String) (els : List CardContainer) :
    scrapeCollectionPure colName colId els
        = (els.filterMap (acceptCard colName colId), countReasons els) ∧
      ∀ r ∈ (scrapeCollectionPure colName colId els).1,
        r.data.name ≠ "" ∧ jsTrim r.data.name ≠ "" ∧ r.data.conditions ≠ [] ∧
          0 < r.data.price ∧ ∃ s, r.data.set = some s ∧ s ≠ "" ∧ jsTrim s ≠ "" := by
  refine ⟨scrapeCollectionPure_eq colName colId els, ?_⟩
  intro r hr
  rw [scrapeCollectionPure_eq] at hr
  rcases List.mem_filterMap.mp hr with ⟨el, _, hacc⟩
  simp only [acceptCard] at hacc
  split_ifs at hacc with h
  injection hacc with he
  subst he
  simp only [Bool.and_eq_true] at h
  obtain ⟨⟨⟨hname, hprice⟩, hconds⟩, hset⟩ := h
  unfold hasValidName at hname
  unfold hasValidPrice at hprice
  unfold hasValidConditions at hconds
  unfold hasValidSet at hset
  simp only [Bool.and_eq_true, decide_eq_true_eq] at hname hprice hconds
  refine ⟨hname.1, hname.2, hconds, hprice, ?_⟩
  cases hs : (parseCardData el).set with
  | none => rw [hs] at hset; cases hset
  | some s =>
      rw [hs] at hset
      simp only [Bool.and_eq_true, decide_eq_true_eq] at hset
      exact ⟨s, rfl, hset.1, hset.2⟩

/-- A container passing all four acceptance checks, for the C7 witness. -/
def c7Container : CardContainer :=
  { elnm := some "Llanowar Elves", alphabet := none, magicrarity := some "C",
    foilAttr := none, cw := none, cu := none, cb := none, cr := none, cg := some "1",
    cnocol := none,
    sales := [⟨"NM/M", some ⟨"ostk5", "4"⟩, "0.30 €"⟩],
    setText := some "Foundations", priceAttr := none, imageSrc := none,
    detailHref := none }

/-- Witness for C7 at a singleton collection page. -/
theorem c7_accept_invariant_witness :
    ∀ r ∈ (scrapeCollectionPure "Foundations" "77" [c7Container]).1,
      r.data.name ≠ "" ∧ jsTrim r.data.name ≠ "" ∧ r.data.conditions ≠ [] ∧
        0 < r.data.price ∧ ∃ s, r.data.set = some s ∧ s ≠ "" ∧ jsTrim s ≠ "" :=
  (c7_accept_invariant "Foundations" "77" [c7Container]).2

/-! ## Price parsing: the general `"<number> <currency>"` shape -/

/-- The value of a digit-value list, most significant first. -/
def natOfDigits (ds : List Nat) : Nat := ds.foldl (fun a d => a * 10 + d) 0

/-- A price string `"<digits> <currency>"` rendered from digit values
(`Nat.digitChar` maps `0-9` to `'0'-'9'`). -/
def renderIntPrice (ds : List Nat) (cur : String) : String :=
  String.mk (ds.map Nat.digitChar ++ ' ' :: cur.toList)

/-- A price string `"<digits>.<digits> <currency>"` rendered from digit
values. -/
def renderDecPrice (ds fs : List Nat) (cur : String) : String :=
  String.mk (ds.map Nat.digitChar ++ '.' :: (fs.map Nat.digitChar ++ ' ' :: cur.toList))

theorem digitChar_isDigit {d : Nat} (h : d < 10) : (Nat.digitChar d).isDigit = true := by
  interval_cases d <;> decide

theorem digitChar_toNat {d : Nat} (h : d < 10) : (Nat.digitChar d).toNat - 48 = d := by
  interval_cases d <;> decide

theorem takeWhile_all_append {p : Char → Bool} (l₁ l₂ : List Char)
    (h : ∀ x ∈ l₁, p x = true) :
    (l₁ ++ l₂).takeWhile p = l₁ ++ l₂.takeWhile p := by
  induction l₁ with
  | nil => simp
  | cons c l ih =>
      rw [List.cons_append, List.takeWhile_cons, if_pos (h c (List.mem_cons_self _ _)),
        ih (fun x hx => h x (List.mem_cons.mpr (Or.inr hx))), List.cons_append]

theorem dropWhile_all_append {p : Char → Bool} (l₁ l₂ : List Char)
    (h : ∀ x ∈ l₁, p x = true) :
    (l₁ ++ l₂).dropWhile p = l₂.dropWhile p := by
  induction l₁ with
  | nil => simp
  | cons c l ih =>
      rw [List.cons_append, List.dropWhile_cons_of_pos (h c (List.mem_cons_self _ _)),
        ih (fun x hx => h x (List.mem_cons.mpr (Or.inr hx)))]

theorem takeWhile_cons_neg {p : Char → Bool} {c : Char} (l : List Char) (h : p c = false) :
    (c :: l).takeWhile p = [] := by
  rw [List.takeWhile_cons, if_neg (by simp [h])]

theorem digitsToNat_map_digitChar (ds : List Nat) (h : ∀ d ∈ ds, d < 10) :
    digitsToNat (ds.map Nat.digitChar) = natOfDigits ds := by
  unfold digitsToNat natOfDigits
  suffices h2 : ∀ a, (ds.map Nat.digitChar).foldl (fun a c => a * 10 + (c.toNat - 48)) a
      = ds.foldl (fun a d => a * 10 + d) a from h2 0
  induction ds with
  | nil => intro a; rfl
  | cons d ds ih =>
      intro a
      rw [List.map_cons, List.foldl_cons, List.foldl_cons,
        digitChar_toNat (h d (List.mem_cons_self _ _))]
      exact ih (fun x hx => h x (List.mem_cons.mpr (Or.inr hx))) _

theorem firstNumberToken_eq_none (l : List Char) (h : ∀ c ∈ l, c.isDigit = false) :
    firstNumberToken l = none := by
  induction l with
  | nil => rfl
  | cons c l ih =>
      simp only [firstNumberToken]
      rw [if_neg (by simp [h c (List.mem_cons_self _ _)])]
      exact ih (fun x hx => h x (List.mem_cons.mpr (Or.inr hx)))

/-- The regex capture on an integer-shaped input: digits followed by a
suffix that starts with a character that is neither a digit nor `'.'`. -/
theorem firstNumberToken_int (d0 : Char) (ds rest : List Char) (c : Char)
    (hd0 : d0.isDigit = true) (hall : ∀ x ∈ d0 :: ds, x.isDigit = true)
    (hc1 : c.isDigit = false) (hc2 : c ≠ '.') :
    firstNumberToken ((d0 :: ds) ++ c :: rest) = some (d0 :: ds, []) := by
  rw [List.cons_append]
  simp only [firstNumberToken]
  rw [if_pos hd0]
  unfold leadDigits
  rw [← List.cons_append, takeWhile_all_append _ _ hall, dropWhile_all_append _ _ hall,
    takeWhile_cons_neg _ hc1, List.append_nil, List.dropWhile_cons_of_neg (by simp [hc1])]
  split
  · rename_i rest2 heq
    injection heq with h1 h2
    exact absurd h1 hc2
  · rfl

/-- The regex capture on a decimal-shaped input: digits, `'.'`, fraction
digits, then a suffix starting with a non-digit. -/
theorem firstNumberToken_frac (d0 : Char) (ds fs rest : List Char) (c : Char)
    (hd0 : d0.isDigit = true) (hall : ∀ x ∈ d0 :: ds, x.isDigit = true)
    (hallf : ∀ x ∈ fs, x.isDigit = true) (hc1 : c.isDigit = false) :
    firstNumberToken ((d0 :: ds) ++ '.' :: (fs ++ c :: rest)) = some (d0 :: ds, fs) := by
  rw [List.cons_append]
  simp only [firstNumberToken]
  rw [if_pos hd0]
  unfold leadDigits
  rw [← List.cons_append, takeWhile_all_append _ _ hall, dropWhile_all_append _ _ hall,
    takeWhile_cons_neg _ (by decide), List.append_nil,
    List.dropWhile_cons_of_neg (by simp)]
  show some (d0 :: ds, List.takeWhile Char.isDigit (fs ++ c :: rest)) = some (d0 :: ds, fs)
  rw [takeWhile_all_append _ _ hallf, takeWhile_cons_neg _ hc1, List.append_nil]


/-! ## Lemmas for the UI tier selection -/

/-- Whether some matched card has an offer of quality `q` with a positive
price (and positive stock when `needStock`). -/
def tierHasOffer (cards : List OutpostCard) (q : String) (needStock : Bool) : Bool :=
  cards.any (fun c => c.conditions.any (fun o =>
    o.condition == q && decide (0 < o.price) && (!needStock || decide (0 < o.stock))))

theorem mem_tierCandidates {cards : List OutpostCard} {q : String} {ns : Bool}
    {c : OutpostCard} {o : UICondition} :
    (c, o) ∈ tierCandidates cards q ns ↔
      c ∈ cards ∧ o ∈ c.conditions ∧ o.condition = q ∧ 0 < o.price ∧
        (ns = true → 0 < o.stock) := by
  unfold tierCandidates
  constructor
  · intro h
    rcases List.mem_flatMap.mp h with ⟨c', hc', hmem⟩
    rcases List.mem_map.mp hmem with ⟨o', ho', heq⟩
    rcases List.mem_filter.mp ho' with ⟨homem, hpred⟩
    rw [Prod.mk.injEq] at heq
    obtain ⟨h1, h2⟩ := heq
    subst h1
    subst h2
    simp only [Bool.and_eq_true, Bool.or_eq_true, Bool.not_eq_true', beq_iff_eq,
      decide_eq_true_eq] at hpred
    refine ⟨hc', homem, hpred.1.1, hpred.1.2, ?_⟩
    intro hns
    rcases hpred.2 with h | h
    · rw [hns] at h; cases h
    · exact h
  · rintro ⟨hc, ho, hcond, hp, hs⟩
    refine List.mem_flatMap.mpr ⟨c, hc, ?_⟩
    refine List.mem_map.mpr ⟨o, List.mem_filter.mpr ⟨ho, ?_⟩, rfl⟩
    simp only [Bool.and_eq_true, Bool.or_eq_true, Bool.not_eq_true', beq_iff_eq,
      decide_eq_true_eq]
    refine ⟨⟨hcond, hp⟩, ?_⟩
    cases hns : ns
    · exact Or.inl rfl
    · exact Or.inr (hs hns)

theorem tierCandidates_nil_iff (cards : List OutpostCard) (q : String) (ns : Bool) :
    tierCandidates cards q ns = [] ↔ tierHasOffer cards q ns = false := by
  constructor
  · intro h
    rw [← Bool.not_eq_true]
    intro hoffer
    unfold tierHasOffer at hoffer
    rcases List.any_eq_true.mp hoffer with ⟨c, hc, hin⟩
    rcases List.any_eq_true.mp hin with ⟨o, ho, hpred⟩
    simp only [Bool.and_eq_true, Bool.or_eq_true, Bool.not_eq_true', beq_iff_eq,
      decide_eq_true_eq] at hpred
    have : (c, o) ∈ tierCandidates cards q ns := by
      refine mem_tierCandidates.mpr ⟨hc, ho, hpred.1.1, hpred.1.2, ?_⟩
      intro hns
      rcases hpred.2 with h2 | h2
      · rw [hns] at h2; cases h2
      · exact h2
    rw [h] at this
    cases this
  · intro h
    rcases hx : tierCandidates cards q ns with _ | ⟨⟨c, o⟩, rest⟩
    · rfl
    · exfalso
      have hmem : (c, o) ∈ tierCandidates cards q ns := by
        rw [hx]; exact List.mem_cons_self _ _
      rcases mem_tierCandidates.mp hmem with ⟨hc, ho, hcond, hp, hs⟩
      have : tierHasOffer cards q ns = true := by
        unfold tierHasOffer
        refine List.any_eq_true.mpr ⟨c, hc, List.any_eq_true.mpr ⟨o, ho, ?_⟩⟩
        simp only [Bool.and_eq_true, Bool.or_eq_true, Bool.not_eq_true', beq_iff_eq,
          decide_eq_true_eq]
        refine ⟨⟨hcond, hp⟩, ?_⟩
        cases hns : ns
        · exact Or.inl rfl
        · exact Or.inr (hs hns)
      rw [h] at this
      cases this

theorem find?_congr {α : Type} {p q : α → Bool} (l : List α) (h : ∀ x ∈ l, p x = q x) :
    l.find? p = l.find? q := by
  induction l with
  | nil => rfl
  | cons a l ih =>
      rw [List.find?_cons, List.find?_cons, h a (List.mem_cons_self _ _)]
      cases hq : q a
      · exact ih (fun x hx => h x (List.mem_cons.mpr (Or.inr hx)))
      · rfl

theorem findSome?_eq_some_first {α β : Type} (f : α → Option β) :
    ∀ (ts : List α) (r : β), ts.findSome? f = some r →
      ∃ t, t ∈ ts ∧ f t = some r ∧
        ts.find? (fun t' => (f t').isSome) = some t := by
  intro ts
  induction ts with
  | nil => intro r h; cases h
  | cons t ts ih =>
      intro r h
      rw [List.findSome?_cons] at h
      cases hft : f t with
      | some v =>
          rw [hft] at h
          injection h with h
          subst h
          exact ⟨t, List.mem_cons_self _ _, hft, by simp [List.find?_cons, hft]⟩
      | none =>
          rw [hft] at h
          rcases ih r h with ⟨t', ht', hf', hfind⟩
          exact ⟨t', List.mem_cons.mpr (Or.inr ht'), hf',
            by simp [List.find?_cons, hft, hfind]⟩

theorem findSome?_eq_none_of {α β : Type} (f : α → Option β) (ts : List α)
    (h : ∀ t ∈ ts, f t = none) : ts.findSome? f = none := by
  induction ts with
  | nil => rfl
  | cons t ts ih =>
      rw [List.findSome?_cons, h t (List.mem_cons_self _ _)]
      exact ih (fun x hx => h x (List.mem_cons.mpr (Or.inr hx)))

theorem findSome?_isSome_of {α β : Type} (f : α → Option β) (ts : List α) (t : α)
    (ht : t ∈ ts) (h : (f t).isSome = true) : (ts.findSome? f).isSome = true := by
  induction ts with
  | nil => cases ht
  | cons a ts ih =>
      rw [List.findSome?_cons]
      cases hfa : f a
      · rcases List.mem_cons.mp ht with he | he
        · subst he; rw [hfa] at h; cases h
        · exact ih he
      · rfl

theorem pickMin_isSome_iff_tier (cards : List OutpostCard) (ns : Bool) (q : String) :
    (pickMin offerLt (tierCandidates cards q ns)).isSome = tierHasOffer cards q ns := by
  cases h : tierCandidates cards q ns with
  | nil =>
      rw [pickMin_eq_none]
      have := (tierCandidates_nil_iff cards q ns).mp h
      rw [this]
      rfl
  | cons x rest =>
      rw [pickMin]
      cases hoffer : tierHasOffer cards q ns
      · exfalso
        have := (tierCandidates_nil_iff cards q ns).mpr hoffer
        rw [h] at this
        cases this
      · rfl

/-! ## Lemmas for the UI matching steps -/

theorem strIncludes_refl (s : String) : strIncludes s s = true := by
  unfold strIncludes
  cases h : s.toList with
  | nil => rfl
  | cons c rest =>
      rw [isInfixChars]
      refine Bool.or_eq_true _ _ |>.mpr (Or.inl ?_)
      exact List.isPrefixOf_iff_prefix.mpr (List.prefix_refl _)

theorem mem_matchedCandidates {inv : List OutpostCard} {nm : String} {c : OutpostCard} :
    c ∈ matchedCandidates inv nm →
      c ∈ inv ∧ hasPosPrice c = true ∧
        (jsToLower c.name = jsToLower nm ∨
          strIncludes (jsToLower c.name) (jsToLower nm) = true ∨
          strIncludes (jsToLower nm) (jsToLower c.name) = true) := by
  intro h
  rcases List.mem_filter.mp h with ⟨hstep, hpos⟩
  refine ⟨?_, hpos, ?_⟩
  · simp only [matchStep] at hstep
    split_ifs at hstep <;> exact (List.mem_filter.mp hstep).1
  · simp only [matchStep] at hstep
    split_ifs at hstep
    · exact Or.inl (beq_iff_eq.mp (List.mem_filter.mp hstep).2)
    · exact Or.inr (Or.inl (List.mem_filter.mp hstep).2)
    · exact Or.inr (Or.inr (List.mem_filter.mp hstep).2)

theorem matchedCandidates_exact {inv : List OutpostCard} {nm : String}
    (h : ∃ c' ∈ inv, jsToLower c'.name = jsToLower nm) :
    ∀ c ∈ matchedCandidates inv nm, jsToLower c.name = jsToLower nm := by
  intro c hc
  rcases h with ⟨c', hc', he⟩
  have hne : inv.filter (fun c => jsToLower c.name == jsToLower nm) ≠ [] := by
    intro hnil
    have : c' ∈ inv.filter (fun c => jsToLower c.name == jsToLower nm) :=
      List.mem_filter.mpr ⟨hc', beq_iff_eq.mpr he⟩
    rw [hnil] at this
    cases this
  rcases List.mem_filter.mp hc with ⟨hstep, _⟩
  simp only [matchStep] at hstep
  rw [if_pos hne] at hstep
  exact beq_iff_eq.mp (List.mem_filter.mp hstep).2

/-- One tier loop of `analyzeDeck`: when some quality tier has a matching
offer, the loop returns an offer from the *first* such tier, minimal in
price there. -/
theorem firstTierPick_spec (cands : List OutpostCard) (ns : Bool)
    (hq : ∃ q ∈ qualityOrder, tierHasOffer cands q ns = true) :
    ∃ c o, firstTierPick cands ns = some (c, o) ∧
      c ∈ cands ∧ o ∈ c.conditions ∧ 0 < o.price ∧ (ns = true → 0 < o.stock) ∧
      qualityOrder.find? (fun q => tierHasOffer cands q ns) = some o.condition ∧
      ∀ c' ∈ cands, ∀ o' ∈ c'.conditions,
        o'.condition = o.condition → 0 < o'.price → (ns = true → 0 < o'.stock) →
          o.price ≤ o'.price := by
  rcases hq with ⟨q, hqmem, hoffer⟩
  have hne : tierCandidates cands q ns ≠ [] := by
    intro hnil
    have := (tierCandidates_nil_iff cands q ns).mp hnil
    rw [hoffer] at this
    cases this
  have hsome := findSome?_isSome_of (fun q' => pickMin offerLt (tierCandidates cands q' ns))
    qualityOrder q hqmem (pickMin_isSome _ _ hne)
  obtain ⟨r, hr⟩ := Option.isSome_iff_exists.mp hsome
  obtain ⟨c, o⟩ := r
  obtain ⟨t, htmem, hft, hfind⟩ := findSome?_eq_some_first _ qualityOrder (c, o) hr
  obtain ⟨hc, ho, hcond, hp, hs⟩ := mem_tierCandidates.mp (pickMin_mem hft)
  refine ⟨c, o, hr, hc, ho, hp, hs, ?_, ?_⟩
  · rw [find?_congr qualityOrder (fun x _ => pickMin_isSome_iff_tier cands ns x)] at hfind
    rw [hcond]
    exact hfind
  · intro c' hc' o' ho' hcond' hp' hs'
    have hmem' : (c', o') ∈ tierCandidates cands t ns :=
      mem_tierCandidates.mpr ⟨hc', ho', hcond ▸ hcond', hp', hs'⟩
    exact pickMin_min (fun p => p.2.price) offerLt offerLt_iff hft (c', o') hmem'

/-- C4 (counterexample): with one matched card whose only offers are
(NM/M, 1000, stock 0) and (HP, 100, stock 0), no tier has stock and the
claim's fallback demands the cheapest positively-priced offer regardless
of tier - the HP offer at 100 - but the code returns the NM/M offer at
1000 (the fallback loop is still tier-ordered). -/
theorem c4_counterexample :
    bestOffer (matchedCandidates
        [⟨"Test Card", some "S", [⟨"NM/M", 1000, 0⟩, ⟨"HP", 100, 0⟩]⟩] "test card")
      = some (⟨"Test Card", some "S", [⟨"NM/M", 1000, 0⟩, ⟨"HP", 100, 0⟩]⟩,
              ⟨"NM/M", 1000, 0⟩) ∧
    (∀ q ∈ qualityOrder,
      tierHasOffer (matchedCandidates
        [⟨"Test Card", some "S", [⟨"NM/M", 1000, 0⟩, ⟨"HP", 100, 0⟩]⟩] "test card") q true
        = false) ∧
    (⟨"Test Card", some "S", [⟨"NM/M", 1000, 0⟩, ⟨"HP", 100, 0⟩]⟩ : OutpostCard) ∈
      matchedCandidates
        [⟨"Test Card", some "S", [⟨"NM/M", 1000, 0⟩, ⟨"HP", 100, 0⟩]⟩] "test card" ∧
    (⟨"HP", 100, 0⟩ : UICondition) ∈
      (⟨"Test Card", some "S", [⟨"NM/M", 1000, 0⟩, ⟨"HP", 100, 0⟩]⟩ : OutpostCard).conditions ∧
    (0 : Int) < 100 ∧ ¬ ((1000 : Int) ≤ 100) := by decide

/-- C4 (amended): per requested name, the candidate set is the inventory
cards found by exact case-insensitive match, else substring containment
(inventory-name-contains-request tried before the reverse direction),
filtered to cards with a positively-priced condition; the returned offer is
the cheapest stocked positively-priced offer within the first quality tier
(order NM/M, EX/GD, SP/P, HP, PR) that has one; when no tier has a stocked
positively-priced offer, the fallback is the cheapest positively-priced
offer within the first tier that has one - still tier-ordered, not
"cheapest regardless of tier". -/
theorem c4_amended (inv : List OutpostCard) (nm : String) :
    (∀ c ∈ matchedCandidates inv nm,
      c ∈ inv ∧ hasPosPrice c = true ∧
        (jsToLower c.name = jsToLower nm ∨
          strIncludes (jsToLower c.name) (jsToLower nm) = true ∨
          strIncludes (jsToLower nm) (jsToLower c.name) = true)) ∧
    ((∃ c' ∈ inv, jsToLower c'.name = jsToLower nm) →
      ∀ c ∈ matchedCandidates inv nm, jsToLower c.name = jsToLower nm) ∧
    ((∃ q ∈ qualityOrder, tierHasOffer (matchedCandidates inv nm) q true = true) →
      ∃ c o, bestOffer (matchedCandidates inv nm) = some (c, o) ∧
        c ∈ matchedCandidates inv nm ∧ o ∈ c.conditions ∧ 0 < o.price ∧ 0 < o.stock ∧
        qualityOrder.find? (fun q => tierHasOffer (matchedCandidates inv nm) q true)
          = some o.condition ∧
        ∀ c' ∈ matchedCandidates inv nm, ∀ o' ∈ c'.conditions,
          o'.condition = o.condition → 0 < o'.price → 0 < o'.stock → o.price ≤ o'.price) ∧
    ((∀ q ∈ qualityOrder, tierHasOffer (matchedCandidates inv nm) q true = false) →
      (∃ q ∈ qualityOrder, tierHasOffer (matchedCandidates inv nm) q false = true) →
      ∃ c o, bestOffer (matchedCandidates inv nm) = some (c, o) ∧
        c ∈ matchedCandidates inv nm ∧ o ∈ c.conditions ∧ 0 < o.price ∧
        qualityOrder.find? (fun q => tierHasOffer (matchedCandidates inv nm) q false)
          = some o.condition ∧
        ∀ c' ∈ matchedCandidates inv nm, ∀ o' ∈ c'.conditions,
          o'.condition = o.condition → 0 < o'.price → o.price ≤ o'.price) := by
  refine ⟨fun c hc => mem_matchedCandidates hc, matchedCandidates_exact, ?_, ?_⟩
  · intro hq
    obtain ⟨c, o, hpick, hc, ho, hp, hs, hfind, hmin⟩ :=
      firstTierPick_spec (matchedCandidates inv nm) true hq
    refine ⟨c, o, ?_, hc, ho, hp, hs rfl, hfind, ?_⟩
    · unfold bestOffer
      rw [hpick]
    · intro c' hc' o' ho' hcond' hp' hs'
      exact hmin c' hc' o' ho' hcond' hp' (fun _ => hs')
  · intro hnone hq
    obtain ⟨c, o, hpick, hc, ho, hp, _, hfind, hmin⟩ :=
      firstTierPick_spec (matchedCandidates inv nm) false hq
    have hfirst : firstTierPick (matchedCandidates inv nm) true = none := by
      unfold firstTierPick
      refine findSome?_eq_none_of _ qualityOrder ?_
      intro t ht
      rw [(tierCandidates_nil_iff (matchedCandidates inv nm) t true).mpr (hnone t ht)]
      rfl
    refine ⟨c, o, ?_, hc, ho, hp, hfind, ?_⟩
    · unfold bestOffer
      rw [hfirst, hpick]
    · intro c' hc' o' ho' hcond' hp'
      exact hmin c' hc' o' ho' hcond' hp' (fun h => by cases h)

/-- Witness for C4 (amended): the stocked-tier branch at an inventory with
a stocked NM/M offer and a cheaper stocked HP offer (the NM/M tier wins). -/
theorem c4_amended_witness :
    ∃ c o,
      bestOffer (matchedCandidates
          [⟨"Witness Card", none, [⟨"HP", 300, 2⟩, ⟨"NM/M", 500, 1⟩]⟩] "witness card")
        = some (c, o) ∧
      c ∈ matchedCandidates
          [⟨"Witness Card", none, [⟨"HP", 300, 2⟩, ⟨"NM/M", 500, 1⟩]⟩] "witness card" ∧
      o ∈ c.conditions ∧ 0 < o.price ∧ 0 < o.stock ∧
      qualityOrder.find?
          (fun q => tierHasOffer (matchedCandidates
            [⟨"Witness Card", none, [⟨"HP", 300, 2⟩, ⟨"NM/M", 500, 1⟩]⟩] "witness card") q true)
        = some o.condition ∧
      ∀ c' ∈ matchedCandidates
          [⟨"Witness Card", none, [⟨"HP", 300, 2⟩, ⟨"NM/M", 500, 1⟩]⟩] "witness card",
        ∀ o' ∈ c'.conditions,
          o'.condition = o.condition → 0 < o'.price → 0 < o'.stock → o.price ≤ o'.price :=
  (c4_amended [⟨"Witness Card", none, [⟨"HP", 300, 2⟩, ⟨"NM/M", 500, 1⟩]⟩]
    "witness card").2.2.1 (by decide)

/-! ## The stable priority sort equals its bucket decomposition -/

theorem flatMap_congr_on {β γ : Type} (L : List β) (f g : β → List γ)
    (h : ∀ i ∈ L, f i = g i) : L.flatMap f = L.flatMap g := by
  induction L with
  | nil => rfl
  | cons a L ih =>
      rw [List.flatMap_cons, List.flatMap_cons, h a (List.mem_cons_self _ _),
        ih (fun x hx => h x (List.mem_cons.mpr (Or.inr hx)))]

theorem orderedInsert_append_lt {α : Type} (key : α → Nat) (b : α) (A B : List α)
    (h : ∀ x ∈ A, key x < key b) :
    List.orderedInsert (fun a c => key a ≤ key c) b (A ++ B)
      = A ++ List.orderedInsert (fun a c => key a ≤ key c) b B := by
  induction A with
  | nil => simp
  | cons x A ih =>
      rw [List.cons_append, List.orderedInsert,
        if_neg (Nat.not_le.mpr (h x (List.mem_cons_self _ _))),
        ih (fun y hy => h y (List.mem_cons.mpr (Or.inr hy))), List.cons_append]

theorem orderedInsert_all_ge {α : Type} (key : α → Nat) (b : α) (B : List α)
    (h : ∀ x ∈ B, key b ≤ key x) :
    List.orderedInsert (fun a c => key a ≤ key c) b B = b :: B := by
  cases B with
  | nil => rfl
  | cons x B => rw [List.orderedInsert, if_pos (h x (List.mem_cons_self _ _))]

/-- A stable sort by a bounded `Nat` key lists the key-`0` elements first
(in input order), then key `1`, and so on. -/
theorem insertionSort_key_buckets {α : Type} (key : α → Nat) (N : Nat) :
    ∀ (l : List α), (∀ x ∈ l, key x ≤ N) →
      List.insertionSort (fun a c => key a ≤ key c) l
        = (List.range (N + 1)).flatMap (fun i => l.filter (fun x => key x == i)) := by
  intro l
  induction l with
  | nil => intro h; simp
  | cons c l ih =>
      intro h
      have hkc : key c ≤ N := h c (List.mem_cons_self _ _)
      have hsplit : N + 1 = key c + (N + 1 - key c) := by omega
      have hsucc : N + 1 - key c = (N - key c) + 1 := by omega
      rw [List.insertionSort, ih (fun x hx => h x (List.mem_cons.mpr (Or.inr hx)))]
      rw [hsplit, List.range_add, List.flatMap_append, List.flatMap_append]
      have hlow : ∀ i ∈ List.range (key c),
          (c :: l).filter (fun x => key x == i) = l.filter (fun x => key x == i) := by
        intro i hi
        have : i < key c := List.mem_range.mp hi
        rw [List.filter_cons_of_neg (by simp; omega)]
      have hlowmem : ∀ x ∈ (List.range (key c)).flatMap
          (fun i => l.filter (fun y => key y == i)), key x < key c := by
        intro x hx
        rcases List.mem_flatMap.mp hx with ⟨i, hi, hxf⟩
        have h1 : i < key c := List.mem_range.mp hi
        have h2 : key x = i := by
          have := (List.mem_filter.mp hxf).2
          exact beq_iff_eq.mp this
        omega
      have hhighmem : ∀ x ∈ ((List.range (N + 1 - key c)).map (key c + ·)).flatMap
          (fun i => l.filter (fun y => key y == i)), key c ≤ key x := by
        intro x hx
        rcases List.mem_flatMap.mp hx with ⟨i, hi, hxf⟩
        rcases List.mem_map.mp hi with ⟨j, _, hji⟩
        have h2 : key x = i := beq_iff_eq.mp (List.mem_filter.mp hxf).2
        omega
      rw [orderedInsert_append_lt key c _ _ hlowmem]
      rw [orderedInsert_all_ge key c _ hhighmem]
      rw [flatMap_congr_on _ _ _ hlow]
      congr 1
      rw [hsucc, List.range_succ_eq_map, List.map_cons, List.flatMap_cons, List.flatMap_cons,
        List.filter_cons_of_pos (by simp), List.cons_append]
      congr 2
      apply flatMap_congr_on
      intro i hi
      rcases List.mem_map.mp hi with ⟨j', hj', hji⟩
      rcases List.mem_map.mp hj' with ⟨j, _, hjj⟩
      have hgt : key c < i := by omega
      rw [List.filter_cons_of_neg (by simp; omega)]

theorem priorityKey_le (ps : List String) (nm : String) : priorityKey ps nm ≤ ps.length := by
  unfold priorityKey
  cases h : ps.findIdx? (fun p => strIncludes nm p) with
  | none => exact le_refl _
  | some i =>
      obtain ⟨hlt, -⟩ := List.findIdx?_eq_some_iff_getElem.mp h
      exact le_of_lt hlt

/-- C8: the priority sort puts the collections whose name contains a
priority term first, grouped by the position of the first matching term in
the priority list (each group in discovery order), with all no-match
collections last in discovery order; and the Bloomburrow/Commander
scenario orders as claimed. -/
theorem c8_priority_order :
    (∀ (priorities : List String) (cols : List CollectionRef),
      prioritySort priorities cols = priorityBuckets priorities cols) ∧
    prioritySort ["Bloomburrow", "Commander"]
        [⟨"1", "Foundations", "u1"⟩, ⟨"2", "Bloomburrow: Alania", "u2"⟩,
         ⟨"3", "Commander Masters", "u3"⟩]
      = [⟨"2", "Bloomburrow: Alania", "u2"⟩, ⟨"3", "Commander Masters", "u3"⟩,
         ⟨"1", "Foundations", "u1"⟩] := by
  constructor
  · intro priorities cols
    unfold prioritySort priorityBuckets
    exact insertionSort_key_buckets (fun c => priorityKey priorities c.name)
      priorities.length cols (fun x _ => priorityKey_le priorities x.name)
  · decide

/-! ## Deduplication of the enumerators -/

theorem snapshotStep_inv (a : Anchor) (st : List CollectionRef × List String)
    (h1 : st.2 = st.1.map (fun c => dedupKey c.id c.name)) (h2 : st.2.Nodup) :
    (snapshotStep st a).2 = (snapshotStep st a).1.map (fun c => dedupKey c.id c.name) ∧
      (snapshotStep st a).2.Nodup := by
  unfold snapshotStep
  by_cases hok : a.href ≠ "" ∧ jsTrim a.text ≠ ""
  · rw [if_pos hok]
    cases hid : collectionIdOf a.href with
    | none => exact ⟨h1, h2⟩
    | some cid =>
        dsimp only
        by_cases hseen : dedupKey cid (jsTrim a.text) ∈ st.2
        · rw [if_pos hseen]
          exact ⟨h1, h2⟩
        · rw [if_neg hseen]
          refine ⟨?_, ?_⟩
          · rw [List.map_append, ← h1]
            rfl
          · refine List.nodup_append.mpr ⟨h2, List.nodup_singleton _, ?_⟩
            intro x hx hx2
            rw [List.mem_singleton] at hx2
            exact hseen (hx2 ▸ hx)
  · rw [if_neg hok]
    exact ⟨h1, h2⟩

theorem parseCollectionsFromHTML_fold_inv (anchors : List Anchor) :
    ∀ (st : List CollectionRef × List String),
      st.2 = st.1.map (fun c => dedupKey c.id c.name) → st.2.Nodup →
      (anchors.foldl snapshotStep st).2
          = (anchors.foldl snapshotStep st).1.map (fun c => dedupKey c.id c.name) ∧
        (anchors.foldl snapshotStep st).2.Nodup := by
  induction anchors with
  | nil => intro st h1 h2; exact ⟨h1, h2⟩
  | cons a anchors ih =>
      intro st h1 h2
      rw [List.foldl_cons]
      obtain ⟨h1', h2'⟩ := snapshotStep_inv a st h1 h2
      exact ih _ h1' h2'

/-- C9 (counterexample): the live catalog parser performs no deduplication;
the same link twice yields the same `(id, name)` pair twice. -/
theorem c9_counterexample :
    (parseCollectionsLive [⟨"index.php?collectionid=123", "Commander Masters"⟩,
        ⟨"index.php?collectionid=123", "Commander Masters"⟩]).map (fun c => (c.id, c.name))
        = [("123", "Commander Masters"), ("123", "Commander Masters")] ∧
      ¬ ((parseCollectionsLive [⟨"index.php?collectionid=123", "Commander Masters"⟩,
          ⟨"index.php?collectionid=123", "Commander Masters"⟩]).map
            (fun c => (c.id, c.name))).Nodup := by
  decide

/-- C9 (amended): the snapshot-based enumerator deduplicates by the
`` `${id}-${name}` `` key, so its output never repeats an `(id, name)`
pair; the live catalog parser does not deduplicate (see the
counterexample). -/
theorem c9_amended (anchors : List Anchor) :
    ((parseCollectionsFromHTML anchors).map (fun c => (c.id, c.name))).Nodup := by
  obtain ⟨h1, h2⟩ := parseCollectionsFromHTML_fold_inv anchors ([], []) rfl List.nodup_nil
  unfold parseCollectionsFromHTML
  refine List.Nodup.of_map (fun p : String × String => dedupKey p.1 p.2) ?_
  rw [List.map_map]
  rw [h1] at h2
  exact h2

/-! ## IEEE binary64 model of `Math.round(parseFloat(token) * 100)`

`parseFloat` rounds the token's exact decimal value to the nearest
binary64 (roundTiesToEven); multiplication by the exactly representable
`100` is correctly rounded; `Math.round` returns the integer closest to
the double's exact value, ties toward +infinity.  Doubles are represented
as `m * 2^g` with `2^52 ≤ m ≤ 2^53` (`m = 0` for zero); the model covers
the normal range reachable from decimal price tokens. -/

/-- Round `n / d` (`d > 0`) to the nearest integer, ties to even
(IEEE roundTiesToEven at integer granularity). -/
def roundNearestEven (n d : Nat) : Nat :=
  let k := n / d
  let r := n % d
  if 2 * r < d then k
  else if d < 2 * r then k + 1
  else if k % 2 = 0 then k else k + 1

/-- Scale the positive rational `(n / d) * 2^g` by powers of two until
`n / d` lies in `[2^52, 2^53)`, preserving the value.  The loop moves in
one direction only, so the fuel is a plain iteration bound. -/
def b64Norm : Nat → Nat → Nat → Int → Nat × Nat × Int
  | 0, n, d, g => (n, d, g)
  | fuel + 1, n, d, g =>
      if n < 2 ^ 52 * d then b64Norm fuel (2 * n) d (g - 1)
      else if 2 ^ 53 * d ≤ n then b64Norm fuel n (2 * d) (g + 1)
      else (n, d, g)

/-- Iteration bound covering the binary64 exponent range for every value
reachable from a price token of reasonable length. -/
def b64Fuel : Nat := 4500

/-- The binary64 value nearest to `n / d` (`roundTiesToEven`), as
(significand, base-two exponent); `(0, 0)` for zero. -/
def nearestB64 (n d : Nat) : Nat × Int :=
  if n = 0 then (0, 0)
  else
    let s := b64Norm b64Fuel n d 0
    (roundNearestEven s.1 s.2.1, s.2.2)

/-- The exact rational value of the double `(m, g)`. -/
def b64Val (m : Nat) (g : Int) : ℚ := (m : ℚ) * (2 : ℚ) ^ g

/-- Correctly rounded binary64 multiplication of the double `(m, g)` by the
natural `k` (exact when `k = 0`): the exact product `(m * k) * 2^g`
rounded to the nearest double. -/
def b64MulNat (m : Nat) (g : Int) (k : Nat) : Nat × Int :=
  if m * k = 0 then (0, 0)
  else
    let s := b64Norm b64Fuel (m * k) 1 g
    (roundNearestEven s.1 s.2.1, s.2.2)

/-- `Math.round` of the nonnegative double `(m, g)`: the integer closest
to its exact value, ties toward +infinity - `⌊m·2^g + 1/2⌋`. -/
def jsMathRound (m : Nat) (g : Int) : Nat :=
  match g with
  | Int.ofNat e => m * 2 ^ e
  | Int.negSucc e => roundHalfUp m (2 ^ (e + 1))

/-- `Math.round(parseFloat(M / 10^K) * 100)` through binary64. -/
def fpCents (M K : Nat) : Nat :=
  let p := nearestB64 M (10 ^ K)
  let p2 := b64MulNat p.1 p.2 100
  jsMathRound p2.1 p2.2

/-- `Math.round(parseFloat(token) * 100)` for a captured decimal token,
evaluated in IEEE binary64 (the runtime semantics of the source). -/
def centsOfTokenFP (intDs fracDs : List Char) : Nat :=
  fpCents (digitsToNat intDs * 10 ^ fracDs.length + digitsToNat fracDs) fracDs.length

/-- Price extraction of `parseCardData` with the binary64 price
computation: the faithful model of scrape-outpost-complete.js lines
139-143 on arbitrary tokens. -/
def parsePriceCentsFP (s : String) : Nat :=
  match firstNumberToken s.toList with
  | none => 0
  | some (intDs, fracDs) => centsOfTokenFP intDs fracDs


/-! ## Correctness bounds for the binary64 model

The chain below proves that on the storefront's actual price format -
at most two fraction digits, magnitude at most `2^40` cents - the
binary64 pipeline `Math.round(parseFloat(token) * 100)` computes the
exact round-half-up of number x 100: two roundings each with relative
error at most `2^-53` leave the intermediate value within `1/2` of the
exact integer, so `Math.round` recovers it. -/

/-- Rounding to the nearest integer (ties to even) moves a nonnegative
rational by at most `1/2`. -/
theorem roundNearestEven_abs (n d : Nat) (hd : 0 < d) :
    |(roundNearestEven n d : ℚ) - (n : ℚ) / d| ≤ 1 / 2 := by
  have hdQ : (0 : ℚ) < d := by exact_mod_cast hd
  have hmod : (n : ℚ) / d = ((n / d : ℕ) : ℚ) + ((n % d : ℕ) : ℚ) / d := by
    have h := Nat.div_add_mod n d
    have hcast : ((d * (n / d) + n % d : ℕ) : ℚ) = (n : ℚ) := by exact_mod_cast h
    push_cast at hcast
    field_simp
    linarith [hcast]
  have hrlt : (n % d : ℕ) < d := Nat.mod_lt _ hd
  have hrltQ : ((n % d : ℕ) : ℚ) < d := by exact_mod_cast hrlt
  have hr0 : (0 : ℚ) ≤ ((n % d : ℕ) : ℚ) := by positivity
  simp only [roundNearestEven]
  split_ifs with h1 h2 h3
  · have h1Q : 2 * ((n % d : ℕ) : ℚ) < d := by exact_mod_cast h1
    rw [hmod, show ((n / d : ℕ) : ℚ) - (((n / d : ℕ) : ℚ) + ((n % d : ℕ) : ℚ) / d)
        = -(((n % d : ℕ) : ℚ) / d) from by ring, abs_neg,
      abs_of_nonneg (by positivity)]
    rw [div_le_div_iff hdQ (by norm_num)]
    linarith
  · have h2Q : (d : ℚ) < 2 * ((n % d : ℕ) : ℚ) := by exact_mod_cast h2
    push_cast
    rw [hmod, show ((n / d : ℕ) : ℚ) + 1 - (((n / d : ℕ) : ℚ) + ((n % d : ℕ) : ℚ) / d)
        = 1 - ((n % d : ℕ) : ℚ) / d from by ring,
      abs_of_nonneg (by rw [sub_nonneg]; rw [div_le_one hdQ]; linarith)]
    rw [sub_le_iff_le_add, ← sub_le_iff_le_add']
    rw [le_div_iff hdQ]
    linarith
  · have hteq : 2 * (n % d) = d := by omega
    have htQ : ((n % d : ℕ) : ℚ) / d = 1 / 2 := by
      rw [div_eq_div_iff (ne_of_gt hdQ) (by norm_num : (2:ℚ) ≠ 0)]
      have := congrArg (Nat.cast (R := ℚ)) hteq
      push_cast at this
      linarith
    rw [hmod, htQ, show ((n / d : ℕ) : ℚ) - (((n / d : ℕ) : ℚ) + 1 / 2) = -(1/2) from by ring,
      abs_neg, abs_of_nonneg (by norm_num)]
  · have hteq : 2 * (n % d) = d := by omega
    have htQ : ((n % d : ℕ) : ℚ) / d = 1 / 2 := by
      rw [div_eq_div_iff (ne_of_gt hdQ) (by norm_num : (2:ℚ) ≠ 0)]
      have := congrArg (Nat.cast (R := ℚ)) hteq
      push_cast at this
      linarith
    push_cast
    rw [hmod, htQ, show ((n / d : ℕ) : ℚ) + 1 - (((n / d : ℕ) : ℚ) + 1 / 2) = 1/2 from by ring,
      abs_of_nonneg (by norm_num)]

theorem roundNearestEven_lb (n d : Nat) (hd : 0 < d) (h : 2 ^ 52 * d ≤ n) :
    2 ^ 52 ≤ roundNearestEven n d := by
  have hk : 2 ^ 52 ≤ n / d := Nat.le_div_iff_mul_le hd |>.mpr (by linarith [Nat.mul_comm (2^52) d])
  simp only [roundNearestEven]
  split_ifs <;> omega

theorem roundNearestEven_ub (n d : Nat) (hd : 0 < d) (h : n < 2 ^ 53 * d) :
    roundNearestEven n d ≤ 2 ^ 53 := by
  have hk : n / d < 2 ^ 53 := Nat.div_lt_iff_lt_mul hd |>.mpr (by linarith [Nat.mul_comm (2^53) d])
  have hk2 : n / d + 1 ≤ 2 ^ 53 := hk
  simp only [roundNearestEven]
  split_ifs <;> omega

theorem b64Norm_up (fuel : Nat) : ∀ (n d : Nat) (g : Int), 0 < n → 0 < d →
    n < 2 ^ 53 * d → 2 ^ 52 * d ≤ n * 2 ^ fuel →
    0 < (b64Norm fuel n d g).2.1 ∧
    2 ^ 52 * (b64Norm fuel n d g).2.1 ≤ (b64Norm fuel n d g).1 ∧
    (b64Norm fuel n d g).1 < 2 ^ 53 * (b64Norm fuel n d g).2.1 ∧
    ((b64Norm fuel n d g).1 : ℚ) / ((b64Norm fuel n d g).2.1 : ℚ)
        * (2 : ℚ) ^ (b64Norm fuel n d g).2.2
      = (n : ℚ) / d * (2 : ℚ) ^ g := by
  induction fuel with
  | zero =>
    intro n d g h1 h2 h3 h4
    simp only [pow_zero, mul_one] at h4
    exact ⟨h2, h4, h3, rfl⟩
  | succ fuel ih =>
    intro n d g h1 h2 h3 h4
    simp only [b64Norm]
    split_ifs with hlt hge
    · have e53 : (2 : ℕ) ^ 53 = 2 * 2 ^ 52 := by norm_num
      have hfuel : 2 ^ 52 * d ≤ 2 * n * 2 ^ fuel := by
        have he : n * 2 ^ (fuel + 1) = 2 * n * 2 ^ fuel := by ring
        linarith [h4, he.symm.le, he.le]
      have hlt' : 2 * n < 2 ^ 53 * d := by
        rw [e53]
        linarith
      obtain ⟨u1, u2, u3, u4⟩ := ih (2 * n) d (g - 1) (by omega) h2 hlt' hfuel
      refine ⟨u1, u2, u3, ?_⟩
      rw [u4]
      push_cast
      rw [zpow_sub_one₀ (by norm_num : (2 : ℚ) ≠ 0)]
      have hdQ : (d : ℚ) ≠ 0 := by positivity
      field_simp
      ring
    · exact absurd h3 (not_lt.mpr hge)
    · exact ⟨h2, not_lt.mp hlt, h3, rfl⟩

theorem b64Norm_down (fuel : Nat) : ∀ (n d : Nat) (g : Int), 0 < n → 0 < d →
    2 ^ 52 * d ≤ n → n < 2 ^ 53 * (d * 2 ^ fuel) →
    0 < (b64Norm fuel n d g).2.1 ∧
    2 ^ 52 * (b64Norm fuel n d g).2.1 ≤ (b64Norm fuel n d g).1 ∧
    (b64Norm fuel n d g).1 < 2 ^ 53 * (b64Norm fuel n d g).2.1 ∧
    ((b64Norm fuel n d g).1 : ℚ) / ((b64Norm fuel n d g).2.1 : ℚ)
        * (2 : ℚ) ^ (b64Norm fuel n d g).2.2
      = (n : ℚ) / d * (2 : ℚ) ^ g := by
  induction fuel with
  | zero =>
    intro n d g h1 h2 h3 h4
    simp only [pow_zero, mul_one] at h4
    exact ⟨h2, h3, h4, rfl⟩
  | succ fuel ih =>
    intro n d g h1 h2 h3 h4
    simp only [b64Norm]
    split_ifs with hlt hge
    · exact absurd h3 (not_le.mpr hlt)
    · have e53 : (2 : ℕ) ^ 53 = 2 * 2 ^ 52 := by norm_num
      have hle' : 2 ^ 52 * (2 * d) ≤ n := by
        rw [show 2 ^ 52 * (2 * d) = 2 ^ 53 * d from by rw [e53]; ring]
        exact hge
      have hlt' : n < 2 ^ 53 * (2 * d * 2 ^ fuel) := by
        rw [show (2 : ℕ) ^ 53 * (2 * d * 2 ^ fuel) = 2 ^ 53 * (d * 2 ^ (fuel + 1)) from by ring]
        exact h4
      obtain ⟨u1, u2, u3, u4⟩ := ih n (2 * d) (g + 1) h1 (by omega) hle' hlt'
      refine ⟨u1, u2, u3, ?_⟩
      rw [u4]
      push_cast
      rw [zpow_add_one₀ (by norm_num : (2 : ℚ) ≠ 0)]
      have hdQ : (d : ℚ) ≠ 0 := by positivity
      field_simp
      ring
    · exact ⟨h2, h3, not_le.mp hge, rfl⟩

theorem roundNormalized (n' d' : Nat) (g' : Int) (q : ℚ)
    (h1 : 0 < d') (h2 : 2 ^ 52 * d' ≤ n') (h3 : n' < 2 ^ 53 * d')
    (hval : (n' : ℚ) / (d' : ℚ) * (2 : ℚ) ^ g' = q) :
    2 ^ 52 ≤ roundNearestEven n' d' ∧ roundNearestEven n' d' ≤ 2 ^ 53 ∧
    |b64Val (roundNearestEven n' d') g' - q| ≤ q / 2 ^ 53 := by
  have hdQ : (0 : ℚ) < d' := by exact_mod_cast h1
  have hzp : (0 : ℚ) < (2 : ℚ) ^ g' := zpow_pos (by norm_num) g'
  refine ⟨roundNearestEven_lb n' d' h1 h2, roundNearestEven_ub n' d' h1 h3, ?_⟩
  have herr : |(roundNearestEven n' d' : ℚ) - (n' : ℚ) / d'| ≤ 1 / 2 :=
    roundNearestEven_abs n' d' h1
  have hsplit : b64Val (roundNearestEven n' d') g' - q
      = ((roundNearestEven n' d' : ℚ) - (n' : ℚ) / d') * (2 : ℚ) ^ g' := by
    rw [b64Val, ← hval]; ring
  rw [hsplit, abs_mul, abs_of_pos hzp]
  have hstep : |(roundNearestEven n' d' : ℚ) - (n' : ℚ) / d'| * (2 : ℚ) ^ g'
      ≤ (1 / 2) * (2 : ℚ) ^ g' :=
    mul_le_mul_of_nonneg_right herr (le_of_lt hzp)
  refine le_trans hstep ?_
  have h52 : (2 : ℚ) ^ (52 : ℕ) ≤ (n' : ℚ) / d' := by
    rw [le_div_iff hdQ]
    calc (2 : ℚ) ^ (52 : ℕ) * d' = ((2 ^ 52 * d' : ℕ) : ℚ) := by push_cast; ring
    _ ≤ (n' : ℚ) := by exact_mod_cast h2
  have hq52 : (2 : ℚ) ^ (52 : ℕ) * (2 : ℚ) ^ g' ≤ q := by
    rw [← hval]
    exact mul_le_mul_of_nonneg_right h52 (le_of_lt hzp)
  rw [le_div_iff (by positivity : (0 : ℚ) < (2 : ℚ) ^ (53 : ℕ))]
  have hcoef : (1 / 2 : ℚ) * (2 : ℚ) ^ g' * (2 : ℚ) ^ (53 : ℕ)
      = (2 : ℚ) ^ (52 : ℕ) * (2 : ℚ) ^ g' := by
    norm_num
    ring
  rw [hcoef]
  exact hq52

theorem nearestB64_spec (n d : Nat) (h1 : 0 < n) (h2 : 0 < d)
    (h3 : n < 2 ^ 53 * d) (h4 : 2 ^ 52 * d ≤ n * 2 ^ b64Fuel) :
    2 ^ 52 ≤ (nearestB64 n d).1 ∧ (nearestB64 n d).1 ≤ 2 ^ 53 ∧
    |b64Val (nearestB64 n d).1 (nearestB64 n d).2 - (n : ℚ) / d|
      ≤ ((n : ℚ) / d) / 2 ^ 53 := by
  obtain ⟨u1, u2, u3, u4⟩ := b64Norm_up b64Fuel n d 0 h1 h2 h3 h4
  have hval : ((b64Norm b64Fuel n d 0).1 : ℚ) / ((b64Norm b64Fuel n d 0).2.1 : ℚ)
      * (2 : ℚ) ^ (b64Norm b64Fuel n d 0).2.2 = (n : ℚ) / d := by
    rw [u4, zpow_zero, mul_one]
  have hres := roundNormalized (b64Norm b64Fuel n d 0).1 (b64Norm b64Fuel n d 0).2.1
    (b64Norm b64Fuel n d 0).2.2 ((n : ℚ) / d) u1 u2 u3 hval
  simp only [nearestB64, if_neg (Nat.pos_iff_ne_zero.mp h1)]
  exact hres

theorem b64MulNat_spec (m : Nat) (g : Int) (k : Nat)
    (hm1 : 2 ^ 52 ≤ m) (hm2 : m ≤ 2 ^ 53) (hk : 0 < k) (hkF : k < 2 ^ b64Fuel) :
    2 ^ 52 ≤ (b64MulNat m g k).1 ∧ (b64MulNat m g k).1 ≤ 2 ^ 53 ∧
    |b64Val (b64MulNat m g k).1 (b64MulNat m g k).2 - b64Val m g * k|
      ≤ (b64Val m g * k) / 2 ^ 53 := by
  have hm0 : 0 < m := lt_of_lt_of_le (by positivity) hm1
  have hmk : 0 < m * k := Nat.mul_pos hm0 hk
  have hle : 2 ^ 52 * 1 ≤ m * k := by
    rw [mul_one]
    calc 2 ^ 52 ≤ m := hm1
    _ = m * 1 := (mul_one m).symm
    _ ≤ m * k := Nat.mul_le_mul_left m hk
  have hlt : m * k < 2 ^ 53 * (1 * 2 ^ b64Fuel) := by
    rw [one_mul]
    calc m * k ≤ 2 ^ 53 * k := Nat.mul_le_mul_right k hm2
    _ < 2 ^ 53 * 2 ^ b64Fuel := (Nat.mul_lt_mul_left (by positivity)).mpr hkF
  obtain ⟨u1, u2, u3, u4⟩ := b64Norm_down b64Fuel (m * k) 1 g hmk one_pos hle hlt
  have hval : ((b64Norm b64Fuel (m * k) 1 g).1 : ℚ) / ((b64Norm b64Fuel (m * k) 1 g).2.1 : ℚ)
      * (2 : ℚ) ^ (b64Norm b64Fuel (m * k) 1 g).2.2 = b64Val m g * k := by
    rw [u4, b64Val]
    push_cast
    ring
  have hres := roundNormalized (b64Norm b64Fuel (m * k) 1 g).1
    (b64Norm b64Fuel (m * k) 1 g).2.1 (b64Norm b64Fuel (m * k) 1 g).2.2
    (b64Val m g * k) u1 u2 u3 hval
  simp only [b64MulNat, if_neg (Nat.pos_iff_ne_zero.mp hmk)]
  exact hres

theorem jsMathRound_close (m : Nat) (g : Int) (N : Nat)
    (h : |b64Val m g - (N : ℚ)| < 1 / 2) : jsMathRound m g = N := by
  rw [abs_lt] at h
  obtain ⟨hlo, hhi⟩ := h
  cases g with
  | ofNat e =>
    have hv : b64Val m (Int.ofNat e) = ((m * 2 ^ e : ℕ) : ℚ) := by
      rw [b64Val]
      push_cast
      rw [show (Int.ofNat e) = ((e : ℕ) : ℤ) from rfl, zpow_natCast]
    rw [hv] at hlo hhi
    have h1 : m * 2 ^ e < N + 1 := by
      have hc : ((m * 2 ^ e : ℕ) : ℚ) < ((N + 1 : ℕ) : ℚ) := by push_cast; push_cast at hhi; linarith
      exact_mod_cast hc
    have h2 : N < m * 2 ^ e + 1 := by
      have hc : ((N : ℕ) : ℚ) < ((m * 2 ^ e + 1 : ℕ) : ℚ) := by push_cast; push_cast at hlo; linarith
      exact_mod_cast hc
    show m * 2 ^ e = N
    omega
  | negSucc e =>
    have hD : (0 : ℕ) < 2 ^ (e + 1) := by positivity
    have hDQ : (0 : ℚ) < ((2 ^ (e + 1) : ℕ) : ℚ) := by exact_mod_cast hD
    have hv : b64Val m (Int.negSucc e) = (m : ℚ) / ((2 ^ (e + 1) : ℕ) : ℚ) := by
      rw [b64Val, zpow_negSucc]
      push_cast
      rw [div_eq_mul_inv]
    rw [hv] at hlo hhi
    have hq1 : (m : ℚ) < ((N : ℚ) + 1 / 2) * ((2 ^ (e + 1) : ℕ) : ℚ) :=
      (div_lt_iff hDQ).mp (by linarith)
    have hq2 : ((N : ℚ) - 1 / 2) * ((2 ^ (e + 1) : ℕ) : ℚ) < (m : ℚ) :=
      (lt_div_iff hDQ).mp (by linarith)
    have k1 : 2 * m < 2 * (N * 2 ^ (e + 1)) + 2 ^ (e + 1) := by
      have hc : ((2 * m : ℕ) : ℚ) < ((2 * (N * 2 ^ (e + 1)) + 2 ^ (e + 1) : ℕ) : ℚ) := by
        push_cast
        push_cast at hq1
        nlinarith [hq1]
      exact_mod_cast hc
    have k2 : 2 * (N * 2 ^ (e + 1)) < 2 * m + 2 ^ (e + 1) := by
      have hc : ((2 * (N * 2 ^ (e + 1)) : ℕ) : ℚ) < ((2 * m + 2 ^ (e + 1) : ℕ) : ℚ) := by
        push_cast
        push_cast at hq2
        nlinarith [hq2]
      exact_mod_cast hc
    show (2 * m + 2 ^ (e + 1)) / (2 * 2 ^ (e + 1)) = N
    refine Nat.div_eq_of_lt_le ?_ ?_
    · calc N * (2 * 2 ^ (e + 1)) = 2 * (N * 2 ^ (e + 1)) := by ring
      _ ≤ 2 * m + 2 ^ (e + 1) := le_of_lt k2
    · calc 2 * m + 2 ^ (e + 1) < 2 * (N * 2 ^ (e + 1)) + 2 ^ (e + 1) + 2 ^ (e + 1) := by omega
      _ = (N + 1) * (2 * 2 ^ (e + 1)) := by ring

theorem fpCents_zero (K : Nat) : fpCents 0 K = 0 := rfl

theorem fpCents_exact (M K N : Nat) (hM : 0 < M) (hMb : M ≤ 2 ^ 40) (hK : K ≤ 2)
    (hN : 100 * M = N * 10 ^ K) : fpCents M K = N := by
  have hd : (0 : ℕ) < 10 ^ K := by positivity
  have hd100 : (10 : ℕ) ^ K ≤ 100 := by
    calc (10 : ℕ) ^ K ≤ 10 ^ 2 := Nat.pow_le_pow_right (by norm_num) hK
    _ = 100 := by norm_num
  have h3 : M < 2 ^ 53 * 10 ^ K := by
    calc M ≤ 2 ^ 40 := hMb
    _ < 2 ^ 53 := by norm_num
    _ = 2 ^ 53 * 1 := (mul_one _).symm
    _ ≤ 2 ^ 53 * 10 ^ K := Nat.mul_le_mul_left _ hd
  have h4 : 2 ^ 52 * 10 ^ K ≤ M * 2 ^ b64Fuel := by
    calc 2 ^ 52 * 10 ^ K ≤ 2 ^ 52 * 100 := Nat.mul_le_mul_left _ hd100
    _ ≤ 2 ^ 59 := by norm_num
    _ ≤ 2 ^ b64Fuel := Nat.pow_le_pow_right (by norm_num) (by norm_num [b64Fuel])
    _ ≤ M * 2 ^ b64Fuel := Nat.le_mul_of_pos_left _ hM
  obtain ⟨hm1, hm2, herr1⟩ := nearestB64_spec M (10 ^ K) hM hd h3 h4
  have h100F : (100 : ℕ) < 2 ^ b64Fuel := by
    calc (100 : ℕ) < 2 ^ 7 := by norm_num
    _ ≤ 2 ^ b64Fuel := Nat.pow_le_pow_right (by norm_num) (by norm_num [b64Fuel])
  obtain ⟨hn1, hn2, herr2⟩ := b64MulNat_spec (nearestB64 M (10 ^ K)).1
    (nearestB64 M (10 ^ K)).2 100 hm1 hm2 (by norm_num) h100F
  push_cast at herr2
  set q : ℚ := (M : ℚ) / ((10 ^ K : ℕ) : ℚ) with hqdef
  set v : ℚ := b64Val (nearestB64 M (10 ^ K)).1 (nearestB64 M (10 ^ K)).2 with hvdef
  set v2 : ℚ := b64Val (b64MulNat (nearestB64 M (10 ^ K)).1 (nearestB64 M (10 ^ K)).2 100).1
    (b64MulNat (nearestB64 M (10 ^ K)).1 (nearestB64 M (10 ^ K)).2 100).2 with hv2def
  have hq0 : (0 : ℚ) < q := by
    rw [hqdef]
    have hMQ : (0 : ℚ) < (M : ℚ) := by exact_mod_cast hM
    have hdQ : (0 : ℚ) < ((10 ^ K : ℕ) : ℚ) := by exact_mod_cast hd
    positivity
  have hqle : q ≤ (2 : ℚ) ^ 40 := by
    have hone : (1 : ℚ) ≤ ((10 ^ K : ℕ) : ℚ) := by exact_mod_cast Nat.one_le_iff_ne_zero.mpr hd.ne'
    have hMQ : (M : ℚ) ≤ (2 : ℚ) ^ 40 := by exact_mod_cast hMb
    calc q ≤ (M : ℚ) := div_le_self (by positivity) hone
    _ ≤ (2 : ℚ) ^ 40 := hMQ
  obtain ⟨h1a, h1b⟩ := abs_le.mp herr1
  have hqd : q / 2 ^ 53 < q := div_lt_self hq0 (by norm_num)
  have hvq : v ≤ 2 * q := by linarith
  have hcast : (N : ℚ) * ((10 ^ K : ℕ) : ℚ) = 100 * (M : ℚ) := by exact_mod_cast hN.symm
  have h10 : ((10 ^ K : ℕ) : ℚ) ≠ 0 := by positivity
  have hNq : (N : ℚ) = 100 * q := by
    rw [hqdef, ← mul_div_assoc, eq_div_iff h10]
    exact hcast
  have hNb : (N : ℚ) ≤ 100 * 2 ^ 40 := by rw [hNq]; linarith
  have htri : |v2 - (N : ℚ)| ≤ |v2 - v * 100| + |v * 100 - (N : ℚ)| := abs_sub_le v2 (v * 100) N
  have e3 : |v * 100 - (N : ℚ)| = 100 * |v - q| := by
    rw [hNq, show v * 100 - 100 * q = 100 * (v - q) from by ring, abs_mul]
    norm_num
  have hnum : (300 : ℚ) * 2 ^ 40 / 2 ^ 53 < 1 / 2 := by norm_num
  have hfinal : |v2 - (N : ℚ)| < 1 / 2 := by
    have e2 : |v - q| ≤ q / 2 ^ 53 := herr1
    have e1 : |v2 - v * 100| ≤ v * 100 / 2 ^ 53 := herr2
    linarith
  show jsMathRound (b64MulNat (nearestB64 M (10 ^ K)).1 (nearestB64 M (10 ^ K)).2 100).1
    (b64MulNat (nearestB64 M (10 ^ K)).1 (nearestB64 M (10 ^ K)).2 100).2 = N
  exact jsMathRound_close _ _ _ hfinal

theorem roundHalfUp_mul (N D : Nat) (hD : 0 < D) : roundHalfUp (N * D) D = N := by
  show (2 * (N * D) + D) / (2 * D) = N
  refine Nat.div_eq_of_lt_le ?_ ?_
  · calc N * (2 * D) = 2 * (N * D) := by ring
    _ ≤ 2 * (N * D) + D := Nat.le_add_right _ _
  · calc 2 * (N * D) + D < 2 * (N * D) + D + D := by omega
    _ = (N + 1) * (2 * D) := by ring

theorem roundHalfUp_zero (D : Nat) (hD : 0 < D) : roundHalfUp 0 D = 0 := by
  show (2 * 0 + D) / (2 * D) = 0
  exact Nat.div_eq_of_lt (by omega)

theorem fpCents_int (M : Nat) (hMb : M ≤ 2 ^ 40) : fpCents M 0 = M * 100 := by
  by_cases hM0 : M = 0
  · subst hM0
    rw [fpCents_zero]
  · exact fpCents_exact M 0 (M * 100) (Nat.pos_of_ne_zero hM0) hMb (by norm_num) (by ring)

theorem fpCents_roundHalfUp (M K : Nat) (hK : K ≤ 2) (hMb : M ≤ 2 ^ 40) :
    fpCents M K = roundHalfUp (M * 100) (10 ^ K) := by
  by_cases hM0 : M = 0
  · subst hM0
    rw [fpCents_zero, show (0 : ℕ) * 100 = 0 from rfl,
      roundHalfUp_zero _ (by positivity)]
  · have hM : 0 < M := Nat.pos_of_ne_zero hM0
    have hK3 : K = 0 ∨ K = 1 ∨ K = 2 := by omega
    rcases hK3 with h | h | h <;> subst h
    · have hL : fpCents M 0 = M * 100 :=
        fpCents_exact M 0 (M * 100) hM hMb (by norm_num) (by ring)
      have hR : roundHalfUp (M * 100) (10 ^ 0) = M * 100 := by
        have h := roundHalfUp_mul (M * 100) 1 one_pos
        rw [mul_one] at h
        rw [pow_zero]
        exact h
      rw [hL, hR]
    · have hL : fpCents M 1 = M * 10 :=
        fpCents_exact M 1 (M * 10) hM hMb (by norm_num) (by ring)
      have hR : roundHalfUp (M * 100) (10 ^ 1) = M * 10 := by
        rw [pow_one, show M * 100 = M * 10 * 10 from by ring]
        exact roundHalfUp_mul (M * 10) 10 (by norm_num)
      rw [hL, hR]
    · have hL : fpCents M 2 = M :=
        fpCents_exact M 2 M hM hMb (by norm_num) (by ring)
      have hR : roundHalfUp (M * 100) (10 ^ 2) = M := by
        rw [show M * 100 = M * 10 ^ 2 from by ring]
        exact roundHalfUp_mul M (10 ^ 2) (by norm_num)
      rw [hL, hR]

set_option maxRecDepth 16000

/-- C5 counterexample: on the token `"1.005"` the binary64 pipeline
computes `Math.round(parseFloat("1.005") * 100) = 100` - the nearest
double to 1.005 lies strictly below it, and 100.49... rounds down -
while rounding the exact decimal value times 100 gives 101 (as the
exact-arithmetic reading `parsePriceCents` of the claim does); so the
program does not, in general, round number x 100. -/
theorem c5_counterexample :
    parsePriceCentsFP "1.005 €" = 100 ∧
    roundHalfUp ((digitsToNat ['1'] * 10 ^ 3 + digitsToNat ['0', '0', '5']) * 100) (10 ^ 3)
      = 101 ∧
    parsePriceCents "1.005 €" = 101 ∧
    parsePriceCentsFP "1.005 €" ≠ parsePriceCents "1.005 €" :=
  ⟨by decide, by decide, by decide, by decide⟩

/-- C5 (amended): price parsing takes the first digit run (with optional
fractional part) of the price text and computes
`Math.round(parseFloat(token) * 100)` in IEEE binary64: `"0.26 €"`
parses to 26 cents and `"12.00 €"` to 1200; for every token with at most
two fraction digits and value at most `2^40` cents - covering the
storefront's `d.cc €` format and both examples - this equals the exact
round-half-up of number x 100, but on longer fractions it can differ
from exact rounding (`"1.005 €"` parses to 100, not 101); a string with
no digits parses to 0; and a sale row whose price parses to 0 survives
extraction exactly when its stock is positive (given a non-empty
condition label). -/
theorem c5_amended :
    parsePriceCentsFP "0.26 €" = 26 ∧
    parsePriceCentsFP "12.00 €" = 1200 ∧
    (∀ (ds : List Nat) (cur : String), ds ≠ [] → (∀ d ∈ ds, d < 10) →
      natOfDigits ds ≤ 2 ^ 40 →
      parsePriceCentsFP (renderIntPrice ds cur) = natOfDigits ds * 100) ∧
    (∀ (ds fs : List Nat) (cur : String), ds ≠ [] → fs.length ≤ 2 →
      (∀ d ∈ ds, d < 10) → (∀ d ∈ fs, d < 10) →
      natOfDigits ds * 10 ^ fs.length + natOfDigits fs ≤ 2 ^ 40 →
      parsePriceCentsFP (renderDecPrice ds fs cur)
        = roundHalfUp ((natOfDigits ds * 10 ^ fs.length + natOfDigits fs) * 100)
            (10 ^ fs.length)) ∧
    parsePriceCentsFP "1.005 €" = 100 ∧
    (∀ s : String, (∀ c ∈ s.toList, c.isDigit = false) → parsePriceCentsFP s = 0) ∧
    (∀ r : SaleRow, jsTrim r.quality ≠ "" → parsePriceCents (jsTrim r.priceText) = 0 →
      ((saleToCondition r).isSome = true ↔ stockPos (saleStock r) = true)) := by
  refine ⟨by decide, by decide, ?_, ?_, by decide, ?_, ?_⟩
  · intro ds cur hne hds hb
    cases ds with
    | nil => exact absurd rfl hne
    | cons d0 ds' =>
        have hall : ∀ x ∈ Nat.digitChar d0 :: ds'.map Nat.digitChar, x.isDigit = true := by
          intro x hx
          rcases List.mem_cons.mp hx with h | h
          · exact h ▸ digitChar_isDigit (hds d0 (List.mem_cons_self _ _))
          · rcases List.mem_map.mp h with ⟨d, hd, he⟩
            exact he ▸ digitChar_isDigit (hds d (List.mem_cons.mpr (Or.inr hd)))
        unfold parsePriceCentsFP renderIntPrice
        rw [show (String.mk (((d0 :: ds').map Nat.digitChar) ++ ' ' :: cur.toList)).toList
            = (Nat.digitChar d0 :: ds'.map Nat.digitChar) ++ ' ' :: cur.toList from rfl]
        rw [firstNumberToken_int (Nat.digitChar d0) (ds'.map Nat.digitChar) cur.toList ' '
          (digitChar_isDigit (hds d0 (List.mem_cons_self _ _))) hall (by decide) (by decide)]
        show centsOfTokenFP ((d0 :: ds').map Nat.digitChar) [] = natOfDigits (d0 :: ds') * 100
        unfold centsOfTokenFP
        rw [digitsToNat_map_digitChar _ hds]
        simp only [List.length_nil, pow_zero, mul_one, digitsToNat, List.foldl_nil,
          Nat.add_zero]
        exact fpCents_int _ hb
  · intro ds fs cur hne hlen hds hfs hb
    cases ds with
    | nil => exact absurd rfl hne
    | cons d0 ds' =>
        have hall : ∀ x ∈ Nat.digitChar d0 :: ds'.map Nat.digitChar, x.isDigit = true := by
          intro x hx
          rcases List.mem_cons.mp hx with h | h
          · exact h ▸ digitChar_isDigit (hds d0 (List.mem_cons_self _ _))
          · rcases List.mem_map.mp h with ⟨d, hd, he⟩
            exact he ▸ digitChar_isDigit (hds d (List.mem_cons.mpr (Or.inr hd)))
        have hallf : ∀ x ∈ fs.map Nat.digitChar, x.isDigit = true := by
          intro x hx
          rcases List.mem_map.mp hx with ⟨d, hd, he⟩
          exact he ▸ digitChar_isDigit (hfs d hd)
        unfold parsePriceCentsFP renderDecPrice
        rw [show (String.mk (((d0 :: ds').map Nat.digitChar)
            ++ '.' :: (fs.map Nat.digitChar ++ ' ' :: cur.toList))).toList
          = (Nat.digitChar d0 :: ds'.map Nat.digitChar)
            ++ '.' :: (fs.map Nat.digitChar ++ ' ' :: cur.toList) from rfl]
        rw [firstNumberToken_frac (Nat.digitChar d0) (ds'.map Nat.digitChar)
          (fs.map Nat.digitChar) cur.toList ' '
          (digitChar_isDigit (hds d0 (List.mem_cons_self _ _))) hall hallf (by decide)]
        show centsOfTokenFP ((d0 :: ds').map Nat.digitChar) (fs.map Nat.digitChar)
          = roundHalfUp ((natOfDigits (d0 :: ds') * 10 ^ fs.length + natOfDigits fs) * 100)
              (10 ^ fs.length)
        unfold centsOfTokenFP
        rw [digitsToNat_map_digitChar _ hds, digitsToNat_map_digitChar _ hfs, List.length_map]
        exact fpCents_roundHalfUp _ _ hlen hb
  · intro s h
    unfold parsePriceCentsFP
    rw [firstNumberToken_eq_none s.toList h]
  · intro r hq hpc
    simp only [saleToCondition]
    by_cases hstock : stockPos (saleStock r) = true
    · rw [if_pos ⟨hq, Or.inr hstock⟩]
      simp [hstock]
    · rw [if_neg]
      · simp [hstock]
      · intro hcon
        rcases hcon.2 with hp | hs
        · rw [hpc] at hp
          exact absurd hp (by decide)
        · exact hstock hs

/-- Witness for the amended C5: the general shapes at `"12 €"` and
`"0.26 €"`, a digit-free string, and a priced-at-0, stock-0 row that is
discarded. -/
theorem c5_amended_witness :
    parsePriceCentsFP (renderIntPrice [1, 2] "€") = natOfDigits [1, 2] * 100 ∧
    parsePriceCentsFP (renderDecPrice [0] [2, 6] "€")
      = roundHalfUp ((natOfDigits [0] * 10 ^ 2 + natOfDigits [2, 6]) * 100) (10 ^ 2) ∧
    parsePriceCentsFP "n/a" = 0 ∧
    ((saleToCondition ⟨"HP", some ⟨"ostk2", "0"⟩, "0.00 €"⟩).isSome = true
      ↔ stockPos (saleStock ⟨"HP", some ⟨"ostk2", "0"⟩, "0.00 €"⟩) = true) :=
  ⟨c5_amended.2.2.1 [1, 2] "€" (by decide) (by decide) (by decide),
   c5_amended.2.2.2.1 [0] [2, 6] "€" (by decide) (by decide) (by decide) (by decide)
     (by decide),
   c5_amended.2.2.2.2.2.1 "n/a" (by decide),
   c5_amended.2.2.2.2.2.2 ⟨"HP", some ⟨"ostk2", "0"⟩, "0.00 €"⟩ (by decide) (by decide)⟩
